import Mathlib

/-!
# simple_paster: the matcher, the loader, the clipboard encoding and the loop

A shallow embedding of `simple_paster.go`.  Go strings are modelled as the
sequence of runes that `for _, char := range s` and `[]rune(s)` produce
(`List Char`: every ill-formed byte is read by Go as U+FFFD, so the runes of a
string are always Unicode scalar values).

The standard library parts the program calls are modelled here as well:

* `regexp.Compile` / `MatchString` on the fragment of RE2 syntax that the
  patterns built by `filterEntries` can contain (`regexpCompile`,
  `Regexp.MatchString`); anything else is reported as `ParseResult.outside`,
  and `buildPattern_inside` shows that this never happens for a built pattern.
  `matchString_iff` relates the matcher to the meaning of the operators as a
  relation. The library's resource limits (nesting depth, program size) are
  the parameter `limits`, asked only for patterns of more than 100 characters
  (`limitError`).
* `unicode.SimpleFold` is a table of the library: the relation "r lies on the
  fold orbit of c" is the parameter `fold` of every definition that needs it.
* `csv.Reader.ReadAll` is modelled after the lexing of the file into records:
  its field-count check is `ReadAll`.
* `utf16.Encode`, `strings.TrimSpace`.
-/

namespace SimplePaster

/-! ## Data model -/

/-- Entry of the catalog (`type Entry struct`). -/
structure Entry where
  Name : List Char
  Description : List Char
deriving DecidableEq, Repr

/-! ## regexp/syntax: the parsed expression -/

/-- Error codes of `regexp/syntax` that the modelled fragment can raise;
`ErrLarge` and `ErrNestingDepth` are those of the resource limits. -/
inductive ErrorCode
  | ErrInvalidCharRange
  | ErrInvalidEscape
  | ErrInvalidRepeatOp
  | ErrLarge
  | ErrMissingBracket
  | ErrMissingParen
  | ErrMissingRepeatArgument
  | ErrNestingDepth
  | ErrTrailingBackslash
  | ErrUnexpectedParen
deriving DecidableEq, Repr

/-- Parsed regular expression (`syntax.Regexp`), at the level of what it
matches: concatenations and alternations are nested binary nodes, literal
strings are chains of single literals, greediness is not recorded. -/
inductive Regexp
  | OpNoMatch
  | OpEmptyMatch
  | OpLiteral (r : Char) (foldCase : Bool)
  | OpCharClass (ranges : List (Char × Char)) (foldCase : Bool) (negated : Bool)
  | OpAnyCharNotNL
  | OpBeginText
  | OpEndText
  | OpCapture (cap : Nat) (sub : Regexp)
  | OpStar (sub : Regexp)
  | OpPlus (sub : Regexp)
  | OpQuest (sub : Regexp)
  | OpConcat (a b : Regexp)
  | OpAlternate (a b : Regexp)
deriving DecidableEq, Repr

/-- Element of the parse stack: an expression or one of the two pseudo
operators `opLeftParen` (with its capture index, 0 for `(?:`, and the flags to
restore) and `opVerticalBar`. -/
inductive Item
  | re (r : Regexp)
  | opLeftParen (cap : Nat) (foldCase : Bool)
  | opVerticalBar
deriving DecidableEq, Repr

/-- Parser state (`syntax.parser`): the stack (top first), the `FoldCase` flag
(the only flag the fragment can change; the others stay at `syntax.Perl`) and
the number of capture groups so far. -/
structure Parser where
  stack : List Item
  foldCase : Bool
  numCap : Nat
deriving DecidableEq, Repr

/-- Outcome of `regexp.Compile`: a compiled expression, an error, or a pattern
that uses syntax outside the modelled fragment. -/
inductive ParseResult
  | ok (re : Regexp)
  | error (code : ErrorCode)
  | outside
deriving DecidableEq, Repr

/-- True for an expression, false for a pseudo operator (`Op < opPseudo`). -/
def Item.isRe : Item → Bool
  | .re _ => true
  | _ => false

/-- The expressions of a run of stack items. -/
def Item.regexps : List Item → List Regexp
  | [] => []
  | .re r :: rest => r :: Item.regexps rest
  | _ :: rest => Item.regexps rest

/-- `collapse(subs, OpConcat)`: one expression is itself, more are chained. -/
def collapseConcat : List Regexp → Regexp
  | [] => .OpEmptyMatch
  | [r] => r
  | r :: rest => .OpConcat r (collapseConcat rest)

/-- `collapse(subs, OpAlternate)`. -/
def collapseAlternate : List Regexp → Regexp
  | [] => .OpNoMatch
  | [r] => r
  | r :: rest => .OpAlternate r (collapseAlternate rest)

/-- `parser.concat`: replace the expressions above the topmost pseudo operator
by their concatenation (`OpEmptyMatch` when there are none). -/
def Parser.concat (p : Parser) : Parser :=
  let subs := Item.regexps (p.stack.takeWhile Item.isRe)
  { p with stack := .re (collapseConcat subs.reverse) :: p.stack.dropWhile Item.isRe }

/-- `parser.alternate`: replace the expressions above the topmost pseudo
operator by their alternation. -/
def Parser.alternate (p : Parser) : Parser :=
  let subs := Item.regexps (p.stack.takeWhile Item.isRe)
  { p with stack := .re (collapseAlternate subs.reverse) :: p.stack.dropWhile Item.isRe }

/-- `parser.swapVerticalBar`: when the item below the top is a vertical bar,
move the bar to the top; reports whether it did. -/
def Parser.swapVerticalBar (p : Parser) : Parser × Bool :=
  match p.stack with
  | re1 :: .opVerticalBar :: rest => ({ p with stack := .opVerticalBar :: re1 :: rest }, true)
  | _ => (p, false)

/-- `parser.parseVerticalBar`. -/
def Parser.parseVerticalBar (p : Parser) : Parser :=
  let p := p.concat
  let (p, swapped) := p.swapVerticalBar
  if swapped then p else { p with stack := .opVerticalBar :: p.stack }

/-- The common tail of `parseRightParen` and of `parse`: concatenate, drop a
vertical bar that ends up on top, alternate. -/
def Parser.closeGroup (p : Parser) : Parser :=
  let p := p.concat
  let (p, swapped) := p.swapVerticalBar
  let p := if swapped then { p with stack := p.stack.tail } else p
  p.alternate

/-- `parser.parseRightParen`. -/
def Parser.parseRightParen (p : Parser) : Except ErrorCode Parser :=
  let p := p.closeGroup
  match p.stack with
  | .re re1 :: .opLeftParen cap fc :: rest =>
    if cap = 0 then .ok { p with stack := .re re1 :: rest, foldCase := fc }
    else .ok { p with stack := .re (.OpCapture cap re1) :: rest, foldCase := fc }
  | _ => .error .ErrUnexpectedParen

/-- `parser.literal`. -/
def Parser.literal (p : Parser) (r : Char) : Parser :=
  { p with stack := .re (.OpLiteral r p.foldCase) :: p.stack }

/-- `parser.op` for an operator without operands. -/
def Parser.op (p : Parser) (r : Regexp) : Parser :=
  { p with stack := .re r :: p.stack }

/-- `parser.repeat` for `*`, `+`, `?` (Perl mode): a following `?` is taken as
the non-greedy mark, stacked repetitions are rejected, the operand is the top
of the stack. Returns the parser and the rest of the pattern. -/
def Parser.repeat (p : Parser) (op : Regexp → Regexp) (after : List Char) (lastRepeat : Bool) :
    Except ErrorCode (Parser × List Char) :=
  let after := match after with
    | '?' :: rest => rest
    | _ => after
  if lastRepeat then .error .ErrInvalidRepeatOp
  else match p.stack with
    | .re sub :: rest => .ok ({ p with stack := .re (op sub) :: rest }, after)
    | _ => .error .ErrMissingRepeatArgument

/-- ASCII letter or digit (`isalnum`). -/
def isalnum (c : Char) : Bool :=
  (decide ('0' ≤ c) && decide (c ≤ '9')) || (decide ('A' ≤ c) && decide (c ≤ 'Z')) ||
    (decide ('a' ≤ c) && decide (c ≤ 'z'))

/-- Outcome of reading one escape or class character. -/
inductive CharResult
  | ok (r : Char) (rest : List Char)
  | error (code : ErrorCode)
  | outside
deriving DecidableEq, Repr

/-- `parser.parseEscape` on a text that starts with a backslash: an escaped
ASCII character that is no letter or digit is itself, an escaped non-ASCII rune
is an error; an escaped letter or digit is outside the fragment. -/
def parseEscape : List Char → CharResult
  | _ :: [] => .error .ErrTrailingBackslash
  | _ :: c :: t =>
    if c.toNat < 128 && !isalnum c then .ok c t
    else if c.toNat < 128 then .outside
    else .error .ErrInvalidEscape
  | [] => .error .ErrTrailingBackslash

/-- `parser.parseClassChar`. -/
def parseClassChar : List Char → CharResult
  | [] => .error .ErrMissingBracket
  | '\\' :: t => parseEscape ('\\' :: t)
  | c :: t => .ok c t

/-- Outcome of `parseClass`. -/
inductive ClassResult
  | ok (ranges : List (Char × Char)) (rest : List Char)
  | error (code : ErrorCode)
  | outside
deriving DecidableEq, Repr

/-- Outcome of one round of the loop of `parseClass`. -/
inductive ClassStep
  | done (rest : List Char)
  | more (range : Char × Char) (rest : List Char)
  | error (code : ErrorCode)
  | outside
deriving DecidableEq, Repr

/-- The body of the loop of `parser.parseClass`: the closing bracket (an
ordinary character when `first`) ends the class; otherwise a single
character or a range `lo-hi` is read. A POSIX class `[:name:]` is outside the
fragment. -/
def parseClassStep (t : List Char) (first : Bool) : ClassStep :=
  match t, first with
  | ']' :: rest, false => .done rest
  | '[' :: ':' :: _ :: _, _ => .outside
  | _, _ =>
    match parseClassChar t with
    | .error e => .error e
    | .outside => .outside
    | .ok lo t1 =>
      match t1 with
      | '-' :: c :: t2 =>
        if c = ']' then .more (lo, lo) t1
        else
          match parseClassChar (c :: t2) with
          | .error e => .error e
          | .outside => .outside
          | .ok hi t3 =>
            if hi < lo then .error .ErrInvalidCharRange else .more (lo, hi) t3
      | _ => .more (lo, lo) t1

/-- The loop of `parser.parseClass`, one class element per unit of fuel. -/
def parseClassLoop : Nat → List Char → Bool → List (Char × Char) → ClassResult
  | 0, _, _, _ => .outside
  | fuel + 1, t, first, cls =>
    match parseClassStep t first with
    | .done rest => .ok cls rest
    | .more range rest => parseClassLoop fuel rest false (cls ++ [range])
    | .error e => .error e
    | .outside => .outside

/-- `parser.parseClass` on a text that starts with `[`. -/
def Parser.parseClass (p : Parser) (s : List Char) : Except (Option ErrorCode) (Parser × List Char) :=
  let t := s.tail
  let (negated, t) := match t with
    | '^' :: rest => (true, rest)
    | _ => (false, t)
  match parseClassLoop (t.length + 1) t true [] with
  | .ok cls rest => .ok (p.op (.OpCharClass cls p.foldCase negated), rest)
  | .error e => .error (some e)
  | .outside => .error none

/-- The flag loop of `parser.parsePerlFlags` after `(?`: the flag `i`, ended by
`)` (flags only) or `:` (non-capturing group). Other flags and named groups
are outside the fragment. -/
def parsePerlFlagsLoop (p : Parser) : Bool → List Char → Option (Parser × List Char)
  | _, 'i' :: t => parsePerlFlagsLoop p true t
  | fc, ')' :: t => some ({ p with foldCase := fc }, t)
  | fc, ':' :: t => some ({ p with stack := .opLeftParen 0 p.foldCase :: p.stack, foldCase := fc }, t)
  | _, _ => none

/-- Decimal digit. -/
def isDigit (c : Char) : Bool := decide ('0' ≤ c) && decide (c ≤ '9')

/-- Outcome of one round of the loop of `syntax.parse`: the parser, whether
the element read was a repetition operator, and the rest of the pattern. -/
inductive StepResult
  | next (p : Parser) (isRepeat : Bool) (rest : List Char)
  | error (code : ErrorCode)
  | outside
deriving DecidableEq, Repr

/-- The body of the loop of `syntax.parse` (flags `syntax.Perl`): the switch
on the first character `c` of the pattern text `c :: t`; `lastRepeat` tells
whether the previous element was a repetition operator. -/
def parseStep (p : Parser) (lastRepeat : Bool) (c : Char) (t : List Char) : StepResult :=
  match c with
  | '(' =>
    match t with
    | '?' :: t1 =>
      match parsePerlFlagsLoop p p.foldCase t1 with
      | some (p1, rest) => .next p1 false rest
      | none => .outside
    | _ =>
      .next { p with stack := .opLeftParen (p.numCap + 1) p.foldCase :: p.stack,
                     numCap := p.numCap + 1 } false t
  | '|' => .next p.parseVerticalBar false t
  | ')' =>
    match p.parseRightParen with
    | .ok p1 => .next p1 false t
    | .error e => .error e
  | '^' => .next (p.op .OpBeginText) false t
  | '$' => .next (p.op .OpEndText) false t
  | '.' => .next (p.op .OpAnyCharNotNL) false t
  | '[' =>
    match p.parseClass (c :: t) with
    | .ok (p1, rest) => .next p1 false rest
    | .error (some e) => .error e
    | .error none => .outside
  | '*' =>
    match p.repeat .OpStar t lastRepeat with
    | .ok (p1, rest) => .next p1 true rest
    | .error e => .error e
  | '+' =>
    match p.repeat .OpPlus t lastRepeat with
    | .ok (p1, rest) => .next p1 true rest
    | .error e => .error e
  | '?' =>
    match p.repeat .OpQuest t lastRepeat with
    | .ok (p1, rest) => .next p1 true rest
    | .error e => .error e
  | '{' =>
    match t with
    | [] => .next (p.literal '{') false t
    | d :: _ => if isDigit d then .outside else .next (p.literal '{') false t
  | '\\' =>
    match parseEscape (c :: t) with
    | .ok r rest => .next (p.literal r) false rest
    | .error e => .error e
    | .outside => .outside
  | _ => .next (p.literal c) false t

/-- The loop of `syntax.parse`, one pattern element per unit of fuel, and its
end: close the top level and expect a single expression on the stack. -/
def parseLoop : Nat → Parser → Bool → List Char → ParseResult
  | 0, _, _, _ => .outside
  | _ + 1, p, _, [] =>
    match p.closeGroup.stack with
    | [.re r] => .ok r
    | _ => .error .ErrMissingParen
  | fuel + 1, p, lastRepeat, c :: t =>
    match parseStep p lastRepeat c t with
    | .next p1 isRepeat rest => parseLoop fuel p1 isRepeat rest
    | .error e => .error e
    | .outside => .outside

/-- `syntax.Parse(pattern, syntax.Perl)` without the resource limits. -/
def syntaxParse (pattern : List Char) : ParseResult :=
  parseLoop (pattern.length + 1) { stack := [], foldCase := false, numCap := 0 } false pattern

/-- The resource limits of `syntax.Parse` (`checkLimits`: tree height above
1000, compiled size, number of class runes), which stop the parse with
`ErrNestingDepth` or `ErrLarge`. Their bookkeeping is internal to the library:
`limits` tells for a pattern whether one of them stops its parse and with
which code. A pattern of at most 100 characters stays below all of them (its
tree has fewer nodes than the smallest limit), so `limits` is not asked. -/
def limitError (limits : List Char → Option ErrorCode) (pattern : List Char) :
    Option ErrorCode :=
  if pattern.length ≤ 100 then none else limits pattern

/-- `regexp.Compile(pattern)`. -/
def regexpCompile (limits : List Char → Option ErrorCode) (pattern : List Char) : ParseResult :=
  match limitError limits pattern with
  | some e => .error e
  | none => syntaxParse pattern

/-! ## regexp: matching -/

/-- A literal `c` against the rune `r`: equal, or under `FoldCase` on the
`unicode.SimpleFold` orbit of `c` (the table `fold`). -/
def runeMatches (fold : Char → Char → Bool) (c : Char) (foldCase : Bool) (r : Char) : Bool :=
  r == c || (foldCase && fold c r)

/-- A class range `lo-hi` against the rune `r`: inside the range, or under
`FoldCase` on the fold orbit of a rune of the range (`appendFoldedRange`). -/
def rangeMatches (fold : Char → Char → Bool) (foldCase : Bool) (r : Char) (rg : Char × Char) : Bool :=
  (decide (rg.1 ≤ r) && decide (r ≤ rg.2)) ||
    (foldCase && (List.range (rg.2.toNat - rg.1.toNat + 1)).any fun k =>
      Nat.isValidChar (rg.1.toNat + k) && fold (Char.ofNat (rg.1.toNat + k)) r)

/-- A character class against the rune `r`. -/
def classMatches (fold : Char → Char → Bool) (ranges : List (Char × Char)) (foldCase negated : Bool)
    (r : Char) : Bool :=
  (ranges.any (rangeMatches fold foldCase r)) != negated

/-- From each position of `ps` read one rune satisfying `ok`. -/
def advance (s : List Char) (ok : Char → Bool) (ps : List Nat) : List Nat :=
  ps.filterMap fun i =>
    match s[i]? with
    | some r => if ok r then some (i + 1) else none
    | none => none

/-- The positions of `ps` and those reached by at most `n` rounds of `f`. -/
def closure (f : List Nat → List Nat) : Nat → List Nat → List Nat
  | 0, ps => ps
  | n + 1, ps => ps ++ closure f n (f ps)

/-- The positions of the text `s` where a match of the expression can end when
it starts at one of the positions `ps`. A repetition is unrolled `|s| + 1`
times: positions never decrease, so more rounds reach nothing new
(`mem_step_iff`). -/
def Regexp.step (fold : Char → Char → Bool) (s : List Char) : Regexp → List Nat → List Nat
  | .OpNoMatch, _ => []
  | .OpEmptyMatch, ps => ps
  | .OpLiteral c fc, ps => advance s (runeMatches fold c fc) ps
  | .OpCharClass ranges fc neg, ps => advance s (classMatches fold ranges fc neg) ps
  | .OpAnyCharNotNL, ps => advance s (fun r => r != '\n') ps
  | .OpBeginText, ps => ps.filter fun i => i == 0
  | .OpEndText, ps => ps.filter fun i => i == s.length
  | .OpCapture _ sub, ps => sub.step fold s ps
  | .OpStar sub, ps => closure (fun qs => sub.step fold s qs) (s.length + 1) ps
  | .OpPlus sub, ps => closure (fun qs => sub.step fold s qs) (s.length + 1) (sub.step fold s ps)
  | .OpQuest sub, ps => ps ++ sub.step fold s ps
  | .OpConcat a b, ps => b.step fold s (a.step fold s ps)
  | .OpAlternate a b, ps => a.step fold s ps ++ b.step fold s ps

/-- `re.MatchString(s)`: the expression matches some substring of `s`. -/
def Regexp.MatchString (fold : Char → Char → Bool) (re : Regexp) (s : List Char) : Bool :=
  !(re.step fold s (List.range (s.length + 1))).isEmpty

/-! ## filterEntries -/

/-- The pattern of `filterEntries`: `(?i)` and, for each rune of the query, the
rune followed by `.*`. -/
def buildPattern (query : List Char) : List Char :=
  query.foldl (fun pattern char => pattern ++ [char] ++ ['.', '*']) ['(', '?', 'i', ')']

/-- The loop of `filterEntries` over the catalog: append each entry whose name
matches, stop as soon as 5 are collected. -/
def filterLoop (matchString : List Char → Bool) : List Entry → List Entry → List Entry
  | [], filtered => filtered
  | entry :: rest, filtered =>
    if matchString entry.Name then
      if (filtered ++ [entry]).length ≥ 5 then filtered ++ [entry]
      else filterLoop matchString rest (filtered ++ [entry])
    else filterLoop matchString rest filtered

/-- `filterEntries(entries, query)`. A pattern that does not compile gives the
empty result. -/
def filterEntries (fold : Char → Char → Bool) (limits : List Char → Option ErrorCode)
    (entries : List Entry) (query : List Char) : List Entry :=
  match regexpCompile limits (buildPattern query) with
  | .ok re => filterLoop (re.MatchString fold) entries []
  | _ => []

/-- What `filterEntries` prints: the diagnostic when the pattern does not
compile. -/
def filterEntriesPrints (limits : List Char → Option ErrorCode) (query : List Char) :
    List String :=
  match regexpCompile limits (buildPattern query) with
  | .ok _ => []
  | _ => ["Error compiling regex:"]

/-- Limits of the examples: no pattern is stopped. -/
def noLimits : List Char → Option ErrorCode := fun _ => none

/-- Fold table used in examples: ASCII letters fold to their other case. -/
def asciiFold (c r : Char) : Bool := c.toLower == r.toLower

/-! ## loadCSV -/

/-- Failures of `loadCSV` that come from reading the records. -/
inductive LoadError
  | ErrFieldCount
deriving DecidableEq, Repr

/-- The field-count check of `csv.Reader.readRecord` with `FieldsPerRecord`
as `csv.NewReader` leaves it (0): the first record fixes the expected number
of fields, a later record with another number is `ErrFieldCount`. -/
def readRecords (fieldsPerRecord : Nat) : List (List (List Char)) →
    Except LoadError (List (List (List Char)))
  | [] => .ok []
  | record :: rest =>
    if record.length ≠ fieldsPerRecord then .error .ErrFieldCount
    else
      match readRecords fieldsPerRecord rest with
      | .ok records => .ok (record :: records)
      | .error e => .error e

/-- `reader.ReadAll()` on a file whose lines lex into the records `rows`. -/
def ReadAll : List (List (List Char)) → Except LoadError (List (List (List Char)))
  | [] => .ok []
  | first :: rest =>
    match readRecords first.length rest with
    | .ok records => .ok (first :: records)
    | .error e => .error e

/-- The loop of `loadCSV` over the records that were read. -/
def entriesOfRecords : List (List (List Char)) → List Entry
  | [] => []
  | (name :: description :: _) :: rest =>
    { Name := name, Description := description } :: entriesOfRecords rest
  | _ :: rest => entriesOfRecords rest

/-- `loadCSV()` once `snippets.csv` is open, on the records of the file. -/
def loadCSV (rows : List (List (List Char))) : Except LoadError (List Entry) :=
  match ReadAll rows with
  | .ok records => .ok (entriesOfRecords records)
  | .error e => .error e

/-! ## copyToClipboard -/

/-- `utf16.Encode` on one rune. -/
def utf16EncodeRune (v : Nat) : List Nat :=
  if v < 0xD800 ∨ (0xE000 ≤ v ∧ v < 0x10000) then [v]
  else if 0x10000 ≤ v ∧ v ≤ 0x10FFFF then
    [0xD800 + (((v - 0x10000) >>> 10) &&& 0x3ff), 0xDC00 + ((v - 0x10000) &&& 0x3ff)]
  else [0xFFFD]

/-- `utf16.Encode`. -/
def utf16Encode (s : List Nat) : List Nat :=
  s.flatMap utf16EncodeRune

/-- The two `buf.WriteByte` calls for one code unit: `byte(r)`, `byte(r >> 8)`. -/
def writeUnit (r : Nat) : List Nat :=
  [r % 256, (r >>> 8) % 256]

/-- The bytes `copyToClipboard(text)` puts on the standard input of `clip`. -/
def clipboardBytes (text : List Char) : List Nat :=
  (utf16Encode (text.map Char.toNat)).flatMap writeUnit

/-- `copyToClipboard(text)`: the encoded text is the standard input of
`cmd /c clip`; the result tells whether `cmd.Run()` returned an error. `run`
is the outcome of running the command on given input bytes (true for a nil
error). -/
def copyToClipboard (run : List Nat → Bool) (text : List Char) : Bool :=
  !run (clipboardBytes text)

/-- The UTF-16 code units of a code point, as the specification words it. -/
def specUnits (c : Nat) : List Nat :=
  if c ≤ 0xFFFF then [c]
  else [0xD800 + ((c - 0x10000) >>> 10), 0xDC00 + ((c - 0x10000) &&& 0x3FF)]

/-- The UTF-16LE bytes of a text, as the specification words it. -/
def specUTF16LE (text : List Char) : List Nat :=
  ((text.map Char.toNat).flatMap specUnits).flatMap fun u => [u % 256, u / 256]

/-- Reading little-endian byte pairs as 16-bit code units. -/
def unitsOfBytes : List Nat → List Nat
  | lo :: hi :: rest => (lo + 256 * hi) :: unitsOfBytes rest
  | _ => []

/-- Decoding UTF-16 code units into code points (a surrogate that is not part
of a pair decodes to U+FFFD). -/
def utf16Decode : List Nat → List Nat
  | [] => []
  | [u] => if 0xD800 ≤ u ∧ u < 0xE000 then [0xFFFD] else [u]
  | u :: u2 :: rest =>
    if 0xD800 ≤ u ∧ u < 0xDC00 then
      if 0xDC00 ≤ u2 ∧ u2 < 0xE000 then
        (0x10000 + (u - 0xD800) * 0x400 + (u2 - 0xDC00)) :: utf16Decode rest
      else 0xFFFD :: utf16Decode (u2 :: rest)
    else if 0xDC00 ≤ u ∧ u < 0xE000 then 0xFFFD :: utf16Decode (u2 :: rest)
    else u :: utf16Decode (u2 :: rest)

/-! ## searchAndCopy -/

/-- `unicode.IsSpace`. -/
def isSpace (c : Char) : Bool :=
  c == '\t' || c == '\n' || c.toNat == 0x0B || c.toNat == 0x0C || c == '\r' || c == ' ' ||
    c.toNat == 0x85 || c.toNat == 0xA0 || c.toNat == 0x1680 ||
    (decide (0x2000 ≤ c.toNat) && decide (c.toNat ≤ 0x200A)) ||
    c.toNat == 0x2028 || c.toNat == 0x2029 || c.toNat == 0x202F || c.toNat == 0x205F ||
    c.toNat == 0x3000

/-- `strings.TrimSpace`. -/
def TrimSpace (s : List Char) : List Char :=
  ((s.dropWhile isSpace).reverse.dropWhile isSpace).reverse

/-- What the loop does to the outside: printing, clearing the screen, calling
`copyToClipboard`, leaving through `os.Exit`. -/
inductive Event
  | print (text : String)
  | printMatch (index : Nat) (name : List Char)
  | clearScreen
  | copyToClipboard (text : List Char)
  | exit (code : Nat)
deriving DecidableEq, Repr

/-- Where the loop stands: before reading a query, before reading a choice
among the matches of the last query, or after `os.Exit`. -/
inductive State
  | Searching
  | Selecting (lastMatches : List Entry)
  | Exited (code : Nat)
deriving DecidableEq, Repr

/-- The `Printf` lines of the matches, numbered from `i + 1`. -/
def printMatches : Nat → List Entry → List Event
  | _, [] => []
  | i, m :: rest => .printMatch (i + 1) m.Name :: printMatches (i + 1) rest

/-- The index a one-digit choice stands for: `int(choice[0] - '1')`. -/
def choiceIndex (choice : List Char) : Nat :=
  match choice with
  | c :: _ => c.toNat - '1'.toNat
  | [] => 0

/-- One line read by `searchAndCopy`: a query in `Searching`, a choice in
`Selecting`. -/
def step (fold : Char → Char → Bool) (limits : List Char → Option ErrorCode)
    (run : List Nat → Bool) (entries : List Entry) : State → List Char → State × List Event
  | .Searching, line =>
    let query := TrimSpace line
    if query = [] then (.Searching, [.print "Enter search query: "])
    else
      let lastMatches := filterEntries fold limits entries query
      let shown := [Event.print "Enter search query: "] ++
        (filterEntriesPrints limits query).map Event.print ++ [Event.clearScreen]
      if lastMatches.length > 0 then
        (.Selecting lastMatches,
          shown ++ [Event.print "Matches:"] ++ printMatches 0 lastMatches ++
            [Event.print "\nSelect option (1-5) or press enter for new search: "])
      else (.Searching, shown ++ [Event.print "No matches found."])
  | .Selecting lastMatches, line =>
    let choice := TrimSpace line
    if choice = ['1'] ∨ choice = ['2'] ∨ choice = ['3'] ∨ choice = ['4'] ∨ choice = ['5'] then
      let index := choiceIndex choice
      match lastMatches[index]? with
      | some m =>
        let err := copyToClipboard run m.Description
        (.Exited 0,
          [.copyToClipboard m.Description,
            .print (if err then "Error copying to clipboard:" else "Description copied to clipboard."),
            .exit 0])
      | none => (.Searching, [.print "Invalid selection."])
    else if choice ≠ [] then (.Searching, [.print "Invalid input."])
    else (.Searching, [.print "\nPerforming a new search..."])
  | .Exited code, _ => (.Exited code, [])

/-- Whether an event is a call of the clipboard writer. -/
def Event.isCopy : Event → Bool
  | .copyToClipboard _ => true
  | _ => false

/-- Whether an event is the exit of the process. -/
def Event.isExit : Event → Bool
  | .exit _ => true
  | _ => false

/-- The loop over the lines of the standard input, from a state on. -/
def runLoop (fold : Char → Char → Bool) (limits : List Char → Option ErrorCode)
    (run : List Nat → Bool) (entries : List Entry) :
    State → List (List Char) → State × List Event
  | s, [] => (s, [])
  | s, line :: rest =>
    let (s1, out1) := step fold limits run entries s line
    let (s2, out2) := runLoop fold limits run entries s1 rest
    (s2, out1 ++ out2)

/-- `searchAndCopy(entries)` on the lines that the standard input delivers. -/
def searchAndCopy (fold : Char → Char → Bool) (limits : List Char → Option ErrorCode)
    (run : List Nat → Bool) (entries : List Entry) (lines : List (List Char)) :
    State × List Event :=
  runLoop fold limits run entries .Searching lines

/-- Example catalog: six of its seven names contain an `a` in either case. -/
def sixEntries : List Entry :=
  [⟨['a'], ['1']⟩, ⟨['b', 'A'], ['2']⟩, ⟨['x'], ['3']⟩, ⟨['a', 'a'], ['4']⟩, ⟨['c', 'a'], ['5']⟩,
    ⟨['A', 'd'], ['6']⟩, ⟨['a', 'e'], ['7']⟩]

/-- The entries the specification asks of the loader: one per record with at
least 2 fields, made of its first two fields, in record order. -/
def specEntries (rows : List (List (List Char))) : List Entry :=
  (rows.filter fun record => 2 ≤ record.length).map fun record =>
    { Name := record.getD 0 [], Description := record.getD 1 [] }

/-! ## The fragment of the pattern syntax -/

/-- Pairs of neighbours that lead the parser out of the fragment. -/
def okPair (a b : Char) : Bool :=
  !(a == '(' && b == '?') && !(a == '{' && isDigit b) &&
    !(a == '\\' && (decide (b.toNat < 128) && isalnum b)) && !(a == '[' && b == ':')

/-- A pattern text without such a pair. -/
def Inside (t : List Char) : Prop := List.Chain' (fun a b => okPair a b = true) t

/-- The characters the switch of `syntax.parse` treats specially; every other
character is a literal. -/
def isSpecial (c : Char) : Bool :=
  c == '(' || c == '|' || c == ')' || c == '^' || c == '$' || c == '.' || c == '[' ||
    c == '*' || c == '+' || c == '?' || c == '{' || c == '\\'

/-- The expressions a query without special characters contributes: each
character, case-folded, followed by `.*`. -/
def plainItems (q : List Char) : List Regexp :=
  q.flatMap fun c => [.OpLiteral c true, .OpStar .OpAnyCharNotNL]

/-- The end of `syntax.parse`. -/
def parseEnd (p : Parser) : ParseResult :=
  match p.closeGroup.stack with
  | [.re r] => .ok r
  | _ => .error .ErrMissingParen

/-- Whether the characters of `q` occur in `name` in this order, each compared
up to case folding (equal, or on the fold orbit), with any characters before,
between and after them. -/
def foldSubseq (fold : Char → Char → Bool) : List Char → List Char → Bool
  | [], _ => true
  | _ :: _, [] => false
  | c :: q, r :: name =>
    (runeMatches fold c true r && foldSubseq fold q name) || foldSubseq fold (c :: q) name

/-- A match of the expression in the text `s` from position `i` to position
`j`, as a relation: the meaning of the operators. -/
inductive Matches (fold : Char → Char → Bool) (s : List Char) : Regexp → Nat → Nat → Prop
  | emptyMatch (i : Nat) : Matches fold s .OpEmptyMatch i i
  | literal (c : Char) (fc : Bool) (i : Nat) (r : Char) :
      s[i]? = some r → runeMatches fold c fc r = true → Matches fold s (.OpLiteral c fc) i (i + 1)
  | charClass (ranges : List (Char × Char)) (fc neg : Bool) (i : Nat) (r : Char) :
      s[i]? = some r → classMatches fold ranges fc neg r = true →
      Matches fold s (.OpCharClass ranges fc neg) i (i + 1)
  | anyCharNotNL (i : Nat) (r : Char) :
      s[i]? = some r → (r != '\n') = true → Matches fold s .OpAnyCharNotNL i (i + 1)
  | beginText : Matches fold s .OpBeginText 0 0
  | endText : Matches fold s .OpEndText s.length s.length
  | capture (cap : Nat) (sub : Regexp) (i j : Nat) :
      Matches fold s sub i j → Matches fold s (.OpCapture cap sub) i j
  | starNil (sub : Regexp) (i : Nat) : Matches fold s (.OpStar sub) i i
  | starCons (sub : Regexp) (i j k : Nat) :
      Matches fold s sub i j → Matches fold s (.OpStar sub) j k → Matches fold s (.OpStar sub) i k
  | plus (sub : Regexp) (i j k : Nat) :
      Matches fold s sub i j → Matches fold s (.OpStar sub) j k → Matches fold s (.OpPlus sub) i k
  | questNil (sub : Regexp) (i : Nat) : Matches fold s (.OpQuest sub) i i
  | questOne (sub : Regexp) (i j : Nat) :
      Matches fold s sub i j → Matches fold s (.OpQuest sub) i j
  | concat (a b : Regexp) (i j k : Nat) :
      Matches fold s a i j → Matches fold s b j k → Matches fold s (.OpConcat a b) i k
  | altLeft (a b : Regexp) (i j : Nat) :
      Matches fold s a i j → Matches fold s (.OpAlternate a b) i j
  | altRight (a b : Regexp) (i j : Nat) :
      Matches fold s b i j → Matches fold s (.OpAlternate a b) i j

/-! ## Theorems: built patterns stay inside the fragment -/

theorem Inside.tail {c : Char} {t : List Char} (h : Inside (c :: t)) : Inside t :=
  List.Chain'.tail h

theorem Inside.of_suffix {t rest : List Char} (h : Inside t) (hs : rest <:+ t) : Inside rest :=
  List.Chain'.suffix h hs

theorem parseEscape_inside (t : List Char) (h : Inside ('\\' :: t)) :
    parseEscape ('\\' :: t) ≠ .outside ∧
      ∀ r rest, parseEscape ('\\' :: t) = .ok r rest → rest <:+ t ∧ rest.length < t.length := by
  cases t with
  | nil => simp [parseEscape]
  | cons c t =>
    have hp : okPair '\\' c = true := (List.chain'_cons.mp h).1
    simp only [parseEscape]
    split_ifs with h1 h2
    · refine ⟨by simp, ?_⟩
      intro r rest hr
      simp only [CharResult.ok.injEq] at hr
      obtain ⟨-, rfl⟩ := hr
      exact ⟨List.suffix_cons _ _, by simp⟩
    · exfalso
      simp [okPair, h2] at hp
      simp [hp] at h1
      omega
    · simp

theorem parseClassChar_inside (t : List Char) (h : Inside t) :
    parseClassChar t ≠ .outside ∧
      ∀ r rest, parseClassChar t = .ok r rest → rest <:+ t ∧ rest.length < t.length := by
  unfold parseClassChar
  split
  · simp
  · rename_i t1
    obtain ⟨h1, h2⟩ := parseEscape_inside t1 h
    refine ⟨h1, ?_⟩
    intro r rest hr
    obtain ⟨h3, h4⟩ := h2 r rest hr
    exact ⟨h3.trans (List.suffix_cons _ _), by simp; omega⟩
  · rename_i c t1 _
    refine ⟨by simp, ?_⟩
    intro r rest hr
    simp only [CharResult.ok.injEq] at hr
    obtain ⟨-, rfl⟩ := hr
    exact ⟨List.suffix_cons _ _, by simp⟩

theorem parseClassStep_inside (t : List Char) (first : Bool) (hin : Inside t) :
    parseClassStep t first ≠ .outside ∧
      (∀ rest, parseClassStep t first = .done rest → rest <:+ t ∧ rest.length < t.length) ∧
      ∀ rg rest, parseClassStep t first = .more rg rest → rest <:+ t ∧ rest.length < t.length := by
  unfold parseClassStep
  split
  · refine ⟨by simp, ?_, by simp⟩
    intro rest hr
    simp only [ClassStep.done.injEq] at hr
    subst hr
    exact ⟨List.suffix_cons _ _, by simp⟩
  · exfalso
    have hp := (List.chain'_cons.mp hin).1
    simp [okPair] at hp
  · obtain ⟨hc1, hc2⟩ := parseClassChar_inside t hin
    split
    · simp
    · rename_i hout
      exact absurd hout hc1
    · rename_i lo t1 hlo
      obtain ⟨hs1, hl1⟩ := hc2 lo t1 hlo
      have hin1 : Inside t1 := hin.of_suffix hs1
      split
      · rename_i c t2
        split_ifs with hc
        · refine ⟨by simp, by simp, ?_⟩
          intro rg rest hr
          simp only [ClassStep.more.injEq] at hr
          obtain ⟨-, rfl⟩ := hr
          exact ⟨hs1, hl1⟩
        · have hin2 : Inside (c :: t2) := hin1.tail
          obtain ⟨hd1, hd2⟩ := parseClassChar_inside (c :: t2) hin2
          split
          · simp
          · rename_i hout
            exact absurd hout hd1
          · rename_i hi t3 hhi
            obtain ⟨hs3, hl3⟩ := hd2 hi t3 hhi
            split_ifs
            · simp
            · refine ⟨by simp, by simp, ?_⟩
              intro rg rest hr
              simp only [ClassStep.more.injEq] at hr
              obtain ⟨-, rfl⟩ := hr
              have hs4 : t3 <:+ '-' :: c :: t2 := hs3.trans (List.suffix_cons _ _)
              have hl4 := hs3.length_le
              simp only [List.length_cons] at hl1 hl3 hl4 ⊢
              exact ⟨hs4.trans hs1, by omega⟩
      · refine ⟨by simp, by simp, ?_⟩
        intro rg rest hr
        simp only [ClassStep.more.injEq] at hr
        obtain ⟨-, rfl⟩ := hr
        exact ⟨hs1, hl1⟩

theorem parseClassLoop_inside (fuel : Nat) :
    ∀ (t : List Char) (first : Bool) (cls : List (Char × Char)), t.length < fuel → Inside t →
      parseClassLoop fuel t first cls ≠ .outside ∧
        ∀ cls1 rest, parseClassLoop fuel t first cls = .ok cls1 rest → rest <:+ t := by
  induction fuel with
  | zero => intro t first cls hlen; omega
  | succ fuel ih =>
    intro t first cls hlen hin
    obtain ⟨h1, h2, h3⟩ := parseClassStep_inside t first hin
    rw [parseClassLoop]
    split
    · rename_i rest hr
      refine ⟨by simp, ?_⟩
      intro cls1 rest1 heq
      simp only [ClassResult.ok.injEq] at heq
      obtain ⟨-, rfl⟩ := heq
      exact (h2 rest hr).1
    · rename_i rg rest hr
      obtain ⟨hs, hl⟩ := h3 rg rest hr
      obtain ⟨h4, h5⟩ := ih rest false (cls ++ [rg]) (by omega) (hin.of_suffix hs)
      exact ⟨h4, fun cls1 rest1 heq => (h5 cls1 rest1 heq).trans hs⟩
    · simp
    · rename_i hout
      exact absurd hout h1

theorem parseClass_inside (p : Parser) (t : List Char) (h : Inside ('[' :: t)) :
    p.parseClass ('[' :: t) ≠ .error none ∧
      ∀ p1 rest, p.parseClass ('[' :: t) = .ok (p1, rest) → rest <:+ t := by
  have ht : Inside t := h.tail
  have key : ∀ (neg : Bool) (t1 : List Char), t1 <:+ t →
      (match parseClassLoop (t1.length + 1) t1 true [] with
        | .ok cls rest => Except.ok (p.op (.OpCharClass cls p.foldCase neg), rest)
        | .error e => Except.error (some e)
        | .outside => Except.error none) ≠ .error none ∧
      ∀ p1 rest, (match parseClassLoop (t1.length + 1) t1 true [] with
        | .ok cls rest => Except.ok (p.op (.OpCharClass cls p.foldCase neg), rest)
        | .error e => Except.error (some e)
        | .outside => Except.error none) = .ok (p1, rest) → rest <:+ t := by
    intro neg t1 hs
    obtain ⟨h1, h2⟩ := parseClassLoop_inside (t1.length + 1) t1 true [] (by omega) (ht.of_suffix hs)
    split
    · rename_i cls rest hr
      refine ⟨by simp, ?_⟩
      intro p1 rest1 heq
      simp only [Except.ok.injEq, Prod.mk.injEq] at heq
      obtain ⟨-, rfl⟩ := heq
      exact (h2 cls rest hr).trans hs
    · simp
    · rename_i hout
      exact absurd hout h1
  unfold Parser.parseClass
  simp only [List.tail_cons]
  cases t with
  | nil => exact key false [] (List.suffix_refl _)
  | cons c t1 =>
    by_cases hc : c = '^'
    · subst hc
      exact key true t1 (List.suffix_cons _ _)
    · have : (match c :: t1 with
          | '^' :: rest => (true, rest)
          | _ => (false, c :: t1)) = (false, c :: t1) := by
        split
        · rename_i heq
          simp only [List.cons.injEq] at heq
          exact absurd heq.1 hc
        · rfl
      simp only [this]
      exact key false (c :: t1) (List.suffix_refl _)

theorem repeat_rest (p : Parser) (op : Regexp → Regexp) (t : List Char) (lr : Bool)
    (p1 : Parser) (rest : List Char) (h : p.repeat op t lr = .ok (p1, rest)) : rest <:+ t := by
  unfold Parser.repeat at h
  simp only at h
  split_ifs at h
  split at h
  · simp only [Except.ok.injEq, Prod.mk.injEq] at h
    obtain ⟨-, rfl⟩ := h
    split
    · exact List.suffix_cons _ _
    · exact List.suffix_refl _
  · cases h

theorem parseStep_inside (p : Parser) (lr : Bool) (c : Char) (t : List Char)
    (h : Inside (c :: t)) :
    parseStep p lr c t ≠ .outside ∧
      ∀ p1 r rest, parseStep p lr c t = .next p1 r rest → rest <:+ t := by
  have hnext : ∀ (q : Parser) (b : Bool), StepResult.next q b t ≠ .outside ∧
      ∀ p1 r rest, StepResult.next q b t = .next p1 r rest → rest <:+ t := by
    intro q b
    refine ⟨by simp, ?_⟩
    intro p1 r rest heq
    simp only [StepResult.next.injEq] at heq
    obtain ⟨-, -, rfl⟩ := heq
    exact List.suffix_refl _
  have hrep : ∀ op : Regexp → Regexp,
      (match p.repeat op t lr with
        | .ok (p1, rest) => StepResult.next p1 true rest
        | .error e => StepResult.error e) ≠ .outside ∧
      ∀ p1 r rest, (match p.repeat op t lr with
        | .ok (p1, rest) => StepResult.next p1 true rest
        | .error e => StepResult.error e) = .next p1 r rest → rest <:+ t := by
    intro op
    split
    · rename_i p2 rest2 heq
      refine ⟨by simp, ?_⟩
      intro p1 r rest hr
      simp only [StepResult.next.injEq] at hr
      obtain ⟨-, -, rfl⟩ := hr
      exact repeat_rest p op t lr p2 rest2 heq
    · simp
  unfold parseStep
  split
  · split
    · exfalso
      have hp := (List.chain'_cons.mp h).1
      simp [okPair] at hp
    · exact hnext _ _
  · exact hnext _ _
  · split
    · exact hnext _ _
    · simp
  · exact hnext _ _
  · exact hnext _ _
  · exact hnext _ _
  · obtain ⟨h1, h2⟩ := parseClass_inside p t h
    split
    · rename_i p2 rest2 heq
      refine ⟨by simp, ?_⟩
      intro p1 r rest hr
      simp only [StepResult.next.injEq] at hr
      obtain ⟨-, -, rfl⟩ := hr
      exact h2 p2 rest2 heq
    · simp
    · rename_i hout
      exact absurd hout h1
  · exact hrep _
  · exact hrep _
  · exact hrep _
  · split
    · exact hnext _ _
    · rename_i d t1
      split_ifs with hd
      · exfalso
        have hp := (List.chain'_cons.mp h).1
        simp [okPair, hd] at hp
      · exact hnext _ _
  · obtain ⟨h1, h2⟩ := parseEscape_inside t h
    split
    · rename_i r rest2 heq
      refine ⟨by simp, ?_⟩
      intro p1 r1 rest hr
      simp only [StepResult.next.injEq] at hr
      obtain ⟨-, -, rfl⟩ := hr
      exact (h2 r rest2 heq).1
    · simp
    · rename_i hout
      exact absurd hout h1
  · exact hnext _ _

theorem parseLoop_inside (fuel : Nat) :
    ∀ (p : Parser) (lr : Bool) (t : List Char), t.length < fuel → Inside t →
      parseLoop fuel p lr t ≠ .outside := by
  induction fuel with
  | zero => intro p lr t hlen; omega
  | succ fuel ih =>
    intro p lr t hlen hin
    cases t with
    | nil =>
      rw [parseLoop]
      split <;> simp
    | cons c t =>
      obtain ⟨h1, h2⟩ := parseStep_inside p lr c t hin
      rw [parseLoop]
      split
      · rename_i p1 r rest heq
        have hs := h2 p1 r rest heq
        have hl := hs.length_le
        simp only [List.length_cons] at hlen
        exact ih p1 r rest (by omega) (hin.tail.of_suffix hs)
      · simp
      · rename_i hout
        exact absurd hout h1

theorem buildPattern_eq (q : List Char) :
    buildPattern q = ['(', '?', 'i', ')'] ++ q.flatMap fun c => [c, '.', '*'] := by
  unfold buildPattern
  generalize ['(', '?', 'i', ')'] = init
  induction q generalizing init with
  | nil => simp
  | cons c q ih =>
    rw [List.foldl_cons, ih]
    simp

theorem inside_flatMap (q : List Char) : Inside (q.flatMap fun c => [c, '.', '*']) := by
  have hdot : ∀ c : Char, okPair c '.' = true := by
    intro c
    simp [okPair, isDigit, isalnum]
  have hstar : ∀ c : Char, okPair '*' c = true := by
    intro c
    simp [okPair]
  induction q with
  | nil => exact List.chain'_nil
  | cons c q ih =>
    simp only [List.flatMap_cons, List.cons_append, List.nil_append]
    refine List.Chain'.cons (hdot c) (List.Chain'.cons (by decide) ?_)
    cases q with
    | nil => exact List.chain'_singleton _
    | cons d q =>
      simp only [List.flatMap_cons, List.cons_append, List.nil_append] at ih ⊢
      exact List.Chain'.cons (hstar d) ih

theorem syntaxParse_inside (q : List Char) : syntaxParse (buildPattern q) ≠ .outside := by
  rw [buildPattern_eq]
  unfold syntaxParse
  have h := parseLoop_inside ((q.flatMap fun c => [c, '.', '*']).length + 4)
    { stack := [], foldCase := true, numCap := 0 } false (q.flatMap fun c => [c, '.', '*'])
    (by omega) (inside_flatMap q)
  simpa [parseLoop, parseStep, parsePerlFlagsLoop] using h

/-- The patterns `filterEntries` builds stay inside the modelled fragment of
the regular expression syntax: `regexp.Compile` either accepts or rejects
them. -/
theorem buildPattern_inside (limits : List Char → Option ErrorCode) (q : List Char) :
    regexpCompile limits (buildPattern q) ≠ .outside := by
  unfold regexpCompile
  cases limitError limits (buildPattern q) with
  | some e => simp
  | none => exact syntaxParse_inside q

/-! ## Theorems: the loop of filterEntries -/

theorem filterLoop_eq (m : List Char → Bool) (C : List Entry) :
    ∀ acc : List Entry, acc.length < 5 →
      filterLoop m C acc = acc ++ (C.filter fun e => m e.Name).take (5 - acc.length) := by
  induction C with
  | nil => intro acc _; simp [filterLoop]
  | cons e rest ih =>
    intro acc hacc
    by_cases hm : m e.Name = true
    · by_cases hfull : (acc ++ [e]).length ≥ 5
      · have h4 : acc.length = 4 := by
          simp only [List.length_append, List.length_singleton] at hfull
          omega
        simp [filterLoop, hm, h4]
      · have hlt : (acc ++ [e]).length < 5 := by omega
        have hstep : 5 - acc.length = (5 - (acc ++ [e]).length) + 1 := by
          simp only [List.length_append, List.length_singleton] at hlt ⊢
          omega
        have hf : (List.filter (fun e => m e.Name) (e :: rest)) =
            e :: List.filter (fun e => m e.Name) rest := by
          simp [List.filter_cons, hm]
        rw [filterLoop, if_pos hm, if_neg hfull, ih _ hlt, hf, hstep, List.take_succ_cons]
        simp
    · have hm2 : m e.Name = false := by simpa using hm
      rw [filterLoop, if_neg hm, ih acc hacc]
      simp [List.filter_cons, hm2]

theorem filterLoop_nil (m : List Char → Bool) (C : List Entry) :
    filterLoop m C [] = (C.filter fun e => m e.Name).take 5 := by
  simpa using filterLoop_eq m C [] (by simp)

theorem take_filter_append_of_full {α : Type} (f : α → Bool) (C D : List α) (n : Nat)
    (h : ((C.filter f).take n).length = n) :
    ((C ++ D).filter f).take n = (C.filter f).take n := by
  have hlen : n ≤ (C.filter f).length := by
    rw [List.length_take] at h
    omega
  rw [List.filter_append, List.take_append_of_le_length hlen]

theorem filterEntries_of_ok (fold : Char → Char → Bool)
    (limits : List Char → Option ErrorCode) (C : List Entry) (q : List Char)
    (re : Regexp) (h : regexpCompile limits (buildPattern q) = .ok re) :
    filterEntries fold limits C q = (C.filter fun e => re.MatchString fold e.Name).take 5 := by
  unfold filterEntries
  rw [h]
  exact filterLoop_nil _ C

/-- C3: when the pattern of the query compiles, `filterEntries` returns the
entries whose name matches it, in catalog order, cut to the first 5; so the
result has at most 5 entries, is a sublist of the catalog, and is not changed
by entries that follow the fifth match. -/
theorem filterEntries_take_filter (fold : Char → Char → Bool)
    (limits : List Char → Option ErrorCode) (C : List Entry) (q : List Char)
    (re : Regexp) (h : regexpCompile limits (buildPattern q) = .ok re) :
    filterEntries fold limits C q = (C.filter fun e => re.MatchString fold e.Name).take 5 ∧
    (filterEntries fold limits C q).length ≤ 5 ∧
    List.Sublist (filterEntries fold limits C q) C ∧
    ∀ D : List Entry, (filterEntries fold limits C q).length = 5 →
      filterEntries fold limits (C ++ D) q = filterEntries fold limits C q := by
  have hC := filterEntries_of_ok fold limits C q re h
  refine ⟨hC, ?_, ?_, ?_⟩
  · rw [hC, List.length_take]
    exact Nat.min_le_left _ _
  · rw [hC]
    exact (List.take_sublist _ _).trans (List.filter_sublist _)
  · intro D hlen
    rw [filterEntries_of_ok fold limits (C ++ D) q re h, hC]
    rw [hC] at hlen
    exact take_filter_append_of_full _ C D 5 hlen

theorem filterEntries_take_filter_witness :
    regexpCompile noLimits (buildPattern ['a']) =
        .ok (.OpConcat (.OpLiteral 'a' true) (.OpStar .OpAnyCharNotNL)) ∧
      (filterEntries asciiFold noLimits sixEntries ['a'] =
          (sixEntries.filter fun e =>
            Regexp.MatchString asciiFold (.OpConcat (.OpLiteral 'a' true) (.OpStar .OpAnyCharNotNL))
              e.Name).take 5 ∧
        (filterEntries asciiFold noLimits sixEntries ['a']).length ≤ 5 ∧
        List.Sublist (filterEntries asciiFold noLimits sixEntries ['a']) sixEntries ∧
        ∀ D : List Entry, (filterEntries asciiFold noLimits sixEntries ['a']).length = 5 →
          filterEntries asciiFold noLimits (sixEntries ++ D) ['a'] =
            filterEntries asciiFold noLimits sixEntries ['a']) :=
  ⟨by decide, filterEntries_take_filter asciiFold noLimits sixEntries ['a'] _ (by decide)⟩

theorem matchString_emptyMatch (fold : Char → Char → Bool) (s : List Char) :
    Regexp.MatchString fold .OpEmptyMatch s = true := by
  simp [Regexp.MatchString, Regexp.step, List.isEmpty_iff]

/-- C4: for the empty query `filterEntries` returns the first `min 5 |C|`
entries of the catalog, in their order, whatever the names are. -/
theorem filterEntries_empty_query (fold : Char → Char → Bool)
    (limits : List Char → Option ErrorCode) (C : List Entry) :
    filterEntries fold limits C [] = C.take (min 5 C.length) ∧
      (filterEntries fold limits C []).length = min 5 C.length := by
  have hre : regexpCompile limits (buildPattern []) = .ok .OpEmptyMatch := rfl
  have h := filterEntries_of_ok fold limits C [] _ hre
  have hall : (C.filter fun e => Regexp.MatchString fold .OpEmptyMatch e.Name) = C := by
    simp [matchString_emptyMatch]
  rw [hall] at h
  have hmin : C.take (min 5 C.length) = C.take 5 := by
    rcases Nat.le_total 5 C.length with h5 | h5
    · rw [Nat.min_eq_left h5]
    · rw [Nat.min_eq_right h5, List.take_length, List.take_of_length_le h5]
  refine ⟨by rw [h, hmin], ?_⟩
  rw [h, List.length_take]

/-! ## Theorems: loadCSV -/

theorem entriesOfRecords_eq_spec (rows : List (List (List Char))) :
    entriesOfRecords rows = specEntries rows := by
  induction rows with
  | nil => rfl
  | cons record rest ih =>
    match record with
    | [] => simpa [entriesOfRecords, specEntries] using ih
    | [_] => simpa [entriesOfRecords, specEntries] using ih
    | name :: description :: more =>
      simp only [entriesOfRecords, ih]
      simp [specEntries, List.filter_cons]

theorem readRecords_uniform (n : Nat) (rows : List (List (List Char)))
    (h : ∀ record ∈ rows, record.length = n) : readRecords n rows = .ok rows := by
  induction rows with
  | nil => rfl
  | cons record rest ih =>
    have h1 : record.length = n := h record (List.mem_cons_self _ _)
    have h2 : readRecords n rest = .ok rest := ih fun r hr => h r (List.mem_cons_of_mem _ hr)
    simp [readRecords, h1, h2]

theorem readRecords_ragged (n : Nat) (rows : List (List (List Char)))
    (h : ∃ record ∈ rows, record.length ≠ n) : readRecords n rows = .error .ErrFieldCount := by
  induction rows with
  | nil => simp at h
  | cons record rest ih =>
    by_cases h1 : record.length = n
    · have h2 : ∃ r ∈ rest, r.length ≠ n := by
        obtain ⟨r, hr, hne⟩ := h
        rcases List.mem_cons.mp hr with rfl | hr
        · exact absurd h1 hne
        · exact ⟨r, hr, hne⟩
      simp [readRecords, h1, ih h2]
    · simp [readRecords, h1]

/-- A table whose records all have the same number of fields is loaded, and
the result has, in record order, one entry per record with at least 2 fields,
made of its first two fields. -/
theorem loadCSV_uniform (rows : List (List (List Char))) (n : Nat)
    (h : ∀ record ∈ rows, record.length = n) : loadCSV rows = .ok (specEntries rows) := by
  cases rows with
  | nil => rfl
  | cons first rest =>
    have h1 : first.length = n := h first (List.mem_cons_self _ _)
    have h2 : ∀ record ∈ rest, record.length = first.length := fun r hr => by
      rw [h1]
      exact h r (List.mem_cons_of_mem _ hr)
    simp [loadCSV, ReadAll, readRecords_uniform _ _ h2, entriesOfRecords_eq_spec]

theorem loadCSV_uniform_witness :
    (∀ record ∈ [[['a'], ['b'], ['c']], [['d'], ['e'], ['f']]], record.length = 3) ∧
      loadCSV [[['a'], ['b'], ['c']], [['d'], ['e'], ['f']]] =
        .ok (specEntries [[['a'], ['b'], ['c']], [['d'], ['e'], ['f']]]) :=
  ⟨by decide, loadCSV_uniform [[['a'], ['b'], ['c']], [['d'], ['e'], ['f']]] 3 (by decide)⟩

/-- A table with a record whose field count differs from the first record's
is not loaded: the reader reports `ErrFieldCount`. -/
theorem loadCSV_ragged (first : List (List Char)) (rest : List (List (List Char)))
    (h : ∃ record ∈ rest, record.length ≠ first.length) :
    loadCSV (first :: rest) = .error .ErrFieldCount := by
  simp [loadCSV, ReadAll, readRecords_ragged _ _ h]

/-- C5 (failing input): a two-field record followed by a one-field record is
rejected with `ErrFieldCount`: loading does not succeed, and the short record
is not skipped, where the claim asks for the one entry of the first record. -/
theorem loadCSV_short_record_rejected :
    loadCSV [[['a'], ['b']], [['c']]] = .error .ErrFieldCount ∧
      loadCSV [[['a'], ['b']], [['c']]] ≠ .ok (specEntries [[['a'], ['b']], [['c']]]) ∧
      specEntries [[['a'], ['b']], [['c']]] = [⟨['a'], ['b']⟩] :=
  ⟨rfl, (fun h => by cases h), rfl⟩

/-! ## Theorems: copyToClipboard -/

theorem char_valid (c : Char) :
    c.toNat < 0xD800 ∨ (0xDFFF < c.toNat ∧ c.toNat < 0x110000) := c.valid

theorem and_3ff (x : Nat) : x &&& 0x3ff = x % 1024 := Nat.and_pow_two_sub_one_eq_mod x 10

theorem shr_10 (x : Nat) : x >>> 10 = x / 1024 := Nat.shiftRight_eq_div_pow x 10

theorem shr_8 (x : Nat) : x >>> 8 = x / 256 := Nat.shiftRight_eq_div_pow x 8

theorem utf16EncodeRune_eq_spec (v : Nat) (h : v < 0xD800 ∨ (0xDFFF < v ∧ v < 0x110000)) :
    utf16EncodeRune v = specUnits v := by
  unfold utf16EncodeRune specUnits
  simp only [and_3ff, shr_10]
  split_ifs <;> first | rfl | omega | (congr 2; omega)

theorem specUnits_lt (v : Nat) (h : v < 0x110000) : ∀ u ∈ specUnits v, u < 0x10000 := by
  unfold specUnits
  simp only [and_3ff, shr_10]
  split_ifs <;> intro u hu <;> simp at hu <;> omega

theorem writeUnit_eq (u : Nat) (h : u < 0x10000) : writeUnit u = [u % 256, u / 256] := by
  unfold writeUnit
  rw [shr_8]
  congr 2
  omega

theorem flatMap_writeUnit (us : List Nat) (h : ∀ u ∈ us, u < 0x10000) :
    us.flatMap writeUnit = us.flatMap fun u => [u % 256, u / 256] := by
  induction us with
  | nil => rfl
  | cons u rest ih =>
    simp only [List.flatMap_cons]
    rw [writeUnit_eq u (h u (List.mem_cons_self _ _)),
      ih fun x hx => h x (List.mem_cons_of_mem _ hx)]

theorem utf16Encode_eq_spec (text : List Char) :
    utf16Encode (text.map Char.toNat) = (text.map Char.toNat).flatMap specUnits := by
  unfold utf16Encode
  induction text with
  | nil => rfl
  | cons c rest ih =>
    simp only [List.map_cons, List.flatMap_cons]
    rw [utf16EncodeRune_eq_spec _ (char_valid c), ih]

theorem specUnits_text_lt (text : List Char) :
    ∀ u ∈ (text.map Char.toNat).flatMap specUnits, u < 0x10000 := by
  intro u hu
  simp only [List.mem_flatMap, List.mem_map] at hu
  obtain ⟨v, ⟨c, _, rfl⟩, hv⟩ := hu
  have hc := char_valid c
  exact specUnits_lt _ (by omega) u hv

theorem unitsOfBytes_flatMap (us : List Nat) (h : ∀ u ∈ us, u < 0x10000) :
    unitsOfBytes (us.flatMap fun u => [u % 256, u / 256]) = us := by
  induction us with
  | nil => rfl
  | cons u rest ih =>
    rw [List.flatMap_cons]
    show (u % 256 + 256 * (u / 256)) :: unitsOfBytes (rest.flatMap fun u => [u % 256, u / 256]) = _
    rw [ih fun x hx => h x (List.mem_cons_of_mem _ hx)]
    congr 1
    omega

theorem utf16Decode_nil : utf16Decode [] = [] := rfl

theorem utf16Decode_one (u : Nat) :
    utf16Decode [u] = if 0xD800 ≤ u ∧ u < 0xE000 then [0xFFFD] else [u] := rfl

theorem utf16Decode_two (u u2 : Nat) (rest : List Nat) :
    utf16Decode (u :: u2 :: rest) =
      if 0xD800 ≤ u ∧ u < 0xDC00 then
        if 0xDC00 ≤ u2 ∧ u2 < 0xE000 then
          (0x10000 + (u - 0xD800) * 0x400 + (u2 - 0xDC00)) :: utf16Decode rest
        else 0xFFFD :: utf16Decode (u2 :: rest)
      else if 0xDC00 ≤ u ∧ u < 0xE000 then 0xFFFD :: utf16Decode (u2 :: rest)
      else u :: utf16Decode (u2 :: rest) := rfl

theorem utf16Decode_single (u : Nat) (rest : List Nat) (h : u < 0xD800 ∨ 0xDFFF < u) :
    utf16Decode (u :: rest) = u :: utf16Decode rest := by
  cases rest with
  | nil =>
    rw [utf16Decode_one, utf16Decode_nil, if_neg (by omega)]
  | cons u2 rest =>
    rw [utf16Decode_two, if_neg (by omega), if_neg (by omega)]

theorem utf16Decode_pair (x : Nat) (rest : List Nat) (h : x < 0x100000) :
    utf16Decode ((0xD800 + x / 1024) :: (0xDC00 + x % 1024) :: rest) =
      (0x10000 + x) :: utf16Decode rest := by
  have h1 : 0xD800 ≤ 0xD800 + x / 1024 ∧ 0xD800 + x / 1024 < 0xDC00 := by omega
  have h2 : 0xDC00 ≤ 0xDC00 + x % 1024 ∧ 0xDC00 + x % 1024 < 0xE000 := by omega
  have h3 : 0x10000 + (0xD800 + x / 1024 - 0xD800) * 0x400 + (0xDC00 + x % 1024 - 0xDC00) =
      0x10000 + x := by omega
  rw [utf16Decode_two, if_pos h1, if_pos h2, h3]

theorem utf16Decode_specUnits (v : Nat) (rest : List Nat)
    (h : v < 0xD800 ∨ (0xDFFF < v ∧ v < 0x110000)) :
    utf16Decode (specUnits v ++ rest) = v :: utf16Decode rest := by
  unfold specUnits
  simp only [and_3ff, shr_10]
  split_ifs with hv
  · exact utf16Decode_single v rest (by omega)
  · have hv2 : 0x10000 + (v - 0x10000) = v := by omega
    have := utf16Decode_pair (v - 0x10000) rest (by omega)
    rw [hv2] at this
    exact this

theorem utf16Decode_text (text : List Char) :
    utf16Decode ((text.map Char.toNat).flatMap specUnits) = text.map Char.toNat := by
  induction text with
  | nil => rfl
  | cons c rest ih =>
    simp only [List.map_cons, List.flatMap_cons]
    rw [utf16Decode_specUnits _ _ (char_valid c), ih]

theorem length_flatMap_pairs (us : List Nat) :
    (us.flatMap fun u => [u % 256, u / 256]).length = 2 * us.length := by
  induction us with
  | nil => rfl
  | cons u rest ih =>
    simp only [List.flatMap_cons, List.length_append, List.length_cons, List.length_nil, ih]
    omega

theorem clipboardBytes_eq_spec (text : List Char) : clipboardBytes text = specUTF16LE text := by
  unfold clipboardBytes specUTF16LE
  rw [utf16Encode_eq_spec, flatMap_writeUnit _ (specUnits_text_lt text)]

/-- C6: whatever the clipboard process does with its input, `copyToClipboard`
runs it on the UTF-16LE encoding of the text and on no other byte sequence:
one code unit for a code point up to U+FFFF, the surrogate pair for one
above, each unit as its low byte then its high byte; the number of bytes is
twice the number of code units, and decoding them gives back the code
points. -/
theorem copyToClipboard_utf16le (text : List Char) :
    (∀ run : List Nat → Bool, copyToClipboard run text = !run (specUTF16LE text)) ∧
      (∀ bytes : List Nat, (∀ run : List Nat → Bool, copyToClipboard run text = !run bytes) →
        bytes = specUTF16LE text) ∧
      clipboardBytes text = specUTF16LE text ∧
      (clipboardBytes text).length = 2 * ((text.map Char.toNat).flatMap specUnits).length ∧
      utf16Decode (unitsOfBytes (clipboardBytes text)) = text.map Char.toNat := by
  have hbytes := clipboardBytes_eq_spec text
  have hrun : ∀ run : List Nat → Bool, copyToClipboard run text = !run (specUTF16LE text) := by
    intro run
    unfold copyToClipboard
    rw [hbytes]
  refine ⟨hrun, ?_, hbytes, ?_, ?_⟩
  · intro bytes h
    have h1 := h fun b => b == specUTF16LE text
    rw [hrun] at h1
    simp only [beq_self_eq_true, Bool.not_true] at h1
    have h2 : (bytes == specUTF16LE text) = true := by
      cases hb : bytes == specUTF16LE text with
      | true => rfl
      | false => rw [hb] at h1; cases h1
    exact beq_iff_eq.mp h2
  · rw [hbytes]
    exact length_flatMap_pairs _
  · rw [hbytes]
    unfold specUTF16LE
    rw [unitsOfBytes_flatMap _ (specUnits_text_lt text), utf16Decode_text]

/-! ## Theorems: searchAndCopy -/

theorem step_selecting_digit (fold : Char → Char → Bool)
    (limits : List Char → Option ErrorCode) (run : List Nat → Bool)
    (entries M : List Entry) (line : List Char) (k : Nat) (hk1 : 1 ≤ k) (hk5 : k ≤ 5)
    (hline : TrimSpace line = [Nat.digitChar k]) :
    step fold limits run entries (.Selecting M) line =
      match M[k - 1]? with
      | some m =>
        (.Exited 0,
          [.copyToClipboard m.Description,
            .print (if copyToClipboard run m.Description then "Error copying to clipboard:"
              else "Description copied to clipboard."),
            .exit 0])
      | none => (.Searching, [.print "Invalid selection."]) := by
  have hd : TrimSpace line = ['1'] ∧ k = 1 ∨ TrimSpace line = ['2'] ∧ k = 2 ∨
      TrimSpace line = ['3'] ∧ k = 3 ∨ TrimSpace line = ['4'] ∧ k = 4 ∨
      TrimSpace line = ['5'] ∧ k = 5 := by
    interval_cases k <;> simp [hline, Nat.digitChar]
  rcases hd with ⟨h, rfl⟩ | ⟨h, rfl⟩ | ⟨h, rfl⟩ | ⟨h, rfl⟩ | ⟨h, rfl⟩ <;>
    · simp only [step, h, choiceIndex]
      simp

/-- C7: in `Selecting M`, a choice that is a digit `k` from 1 to 5 with
`k ≤ |M|` calls the clipboard writer exactly once, with the description of
the `k`-th entry of `M`, reports the outcome and exits with code 0, whether
the copy succeeded or not. -/
theorem step_valid_selection (fold : Char → Char → Bool)
    (limits : List Char → Option ErrorCode) (run : List Nat → Bool)
    (entries M : List Entry) (line : List Char) (k : Nat) (hk1 : 1 ≤ k) (hk5 : k ≤ 5)
    (hM : k ≤ M.length) (hline : TrimSpace line = [Nat.digitChar k]) :
    ∃ m, M[k - 1]? = some m ∧
      step fold limits run entries (.Selecting M) line =
        (.Exited 0,
          [.copyToClipboard m.Description,
            .print (if copyToClipboard run m.Description then "Error copying to clipboard:"
              else "Description copied to clipboard."),
            .exit 0]) ∧
      ((step fold limits run entries (.Selecting M) line).2.filter Event.isCopy).length = 1 := by
  have hlt : k - 1 < M.length := by omega
  refine ⟨M[k - 1], List.getElem?_eq_getElem hlt, ?_, ?_⟩
  · rw [step_selecting_digit fold limits run entries M line k hk1 hk5 hline, List.getElem?_eq_getElem hlt]
  · rw [step_selecting_digit fold limits run entries M line k hk1 hk5 hline, List.getElem?_eq_getElem hlt]
    rfl

theorem step_valid_selection_witness :
    ∃ m, [(⟨['a'], ['x']⟩ : Entry), ⟨['b'], ['y']⟩][2 - 1]? = some m ∧
      step asciiFold noLimits (fun _ => false) [] (.Selecting [⟨['a'], ['x']⟩, ⟨['b'], ['y']⟩])
          [' ', '2', '\r', '\n'] =
        (.Exited 0,
          [.copyToClipboard m.Description,
            .print (if copyToClipboard (fun _ => false) m.Description then
              "Error copying to clipboard:" else "Description copied to clipboard."),
            .exit 0]) ∧
      ((step asciiFold noLimits (fun _ => false) [] (.Selecting [⟨['a'], ['x']⟩, ⟨['b'], ['y']⟩])
          [' ', '2', '\r', '\n']).2.filter Event.isCopy).length = 1 :=
  step_valid_selection asciiFold noLimits (fun _ => false) [] [⟨['a'], ['x']⟩, ⟨['b'], ['y']⟩]
    [' ', '2', '\r', '\n'] 2 (by decide) (by decide) (by decide) (by decide)

theorem step_exited_only_if (fold : Char → Char → Bool)
    (limits : List Char → Option ErrorCode) (run : List Nat → Bool)
    (entries : List Entry) (s : State) (line : List Char) (code : Nat)
    (hs : ∀ c, s ≠ .Exited c) (h : (step fold limits run entries s line).1 = .Exited code) :
    ∃ M k, s = .Selecting M ∧ 1 ≤ k ∧ k ≤ 5 ∧ k ≤ M.length ∧
      TrimSpace line = [Nat.digitChar k] := by
  cases s with
  | Searching =>
    simp only [step] at h
    split_ifs at h
  | Exited c => exact absurd rfl (hs c)
  | Selecting M =>
    by_cases hd : ∃ k, 1 ≤ k ∧ k ≤ 5 ∧ TrimSpace line = [Nat.digitChar k]
    · obtain ⟨k, hk1, hk5, hline⟩ := hd
      refine ⟨M, k, rfl, hk1, hk5, ?_, hline⟩
      rw [step_selecting_digit fold limits run entries M line k hk1 hk5 hline] at h
      by_contra hlen
      have hnone : M[k - 1]? = none := List.getElem?_eq_none (by omega)
      rw [hnone] at h
      simp at h
    · exfalso
      simp only [step] at h
      split_ifs at h with h1 h2
      · apply hd
        rcases h1 with h1 | h1 | h1 | h1 | h1
        · exact ⟨1, by omega, by omega, h1⟩
        · exact ⟨2, by omega, by omega, h1⟩
        · exact ⟨3, by omega, by omega, h1⟩
        · exact ⟨4, by omega, by omega, h1⟩
        · exact ⟨5, by omega, by omega, h1⟩

theorem runLoop_cons_fst (fold : Char → Char → Bool)
    (limits : List Char → Option ErrorCode) (run : List Nat → Bool)
    (entries : List Entry) (s : State) (line : List Char) (rest : List (List Char)) :
    (runLoop fold limits run entries s (line :: rest)).1 =
      (runLoop fold limits run entries (step fold limits run entries s line).1 rest).1 := by
  simp [runLoop]

theorem runLoop_exited_only_if (fold : Char → Char → Bool)
    (limits : List Char → Option ErrorCode) (run : List Nat → Bool)
    (entries : List Entry) (lines : List (List Char)) :
    ∀ (s : State) (code : Nat), (∀ c, s ≠ .Exited c) →
      (runLoop fold limits run entries s lines).1 = .Exited code →
      ∃ pre line post M k, lines = pre ++ line :: post ∧
        (runLoop fold limits run entries s pre).1 = .Selecting M ∧
        1 ≤ k ∧ k ≤ 5 ∧ k ≤ M.length ∧ TrimSpace line = [Nat.digitChar k] := by
  induction lines with
  | nil =>
    intro s code hs h
    exact absurd h (hs code)
  | cons l rest ih =>
    intro s code hs h
    rw [runLoop_cons_fst] at h
    by_cases hex : ∃ c, (step fold limits run entries s l).1 = .Exited c
    · obtain ⟨c, hc⟩ := hex
      obtain ⟨M, k, hsM, hk1, hk5, hkM, hline⟩ :=
        step_exited_only_if fold limits run entries s l c hs hc
      exact ⟨[], l, rest, M, k, rfl, by simpa [runLoop] using hsM, hk1, hk5, hkM, hline⟩
    · have hs1 : ∀ c, (step fold limits run entries s l).1 ≠ .Exited c := fun c hc => hex ⟨c, hc⟩
      obtain ⟨pre, line, post, M, k, hlines, hpre, hk⟩ := ih _ code hs1 h
      refine ⟨l :: pre, line, post, M, k, by simp [hlines], ?_, hk⟩
      rw [runLoop_cons_fst]
      exact hpre

theorem printMatches_quiet (M : List Entry) :
    ∀ (i : Nat), ∀ ev ∈ printMatches i M, ev.isCopy = false ∧ ev.isExit = false := by
  induction M with
  | nil => intro i ev hev; simp [printMatches] at hev
  | cons m rest ih =>
    intro i ev hev
    simp only [printMatches, List.mem_cons] at hev
    rcases hev with rfl | hev
    · exact ⟨rfl, rfl⟩
    · exact ih (i + 1) ev hev

theorem step_quiet (fold : Char → Char → Bool)
    (limits : List Char → Option ErrorCode) (run : List Nat → Bool) (entries : List Entry)
    (s : State) (line : List Char)
    (h : ∀ code, (step fold limits run entries s line).1 ≠ .Exited code) :
    ∀ ev ∈ (step fold limits run entries s line).2, ev.isCopy = false ∧ ev.isExit = false := by
  have hprints : ∀ (ts : List String), ∀ ev ∈ ts.map Event.print,
      ev.isCopy = false ∧ ev.isExit = false := by
    intro ts ev hev
    obtain ⟨t, -, rfl⟩ := List.mem_map.mp hev
    exact ⟨rfl, rfl⟩
  cases s with
  | Searching =>
    simp only [step]
    split_ifs
    · intro ev hev
      simp only [List.mem_singleton] at hev
      subst hev
      exact ⟨rfl, rfl⟩
    · intro ev hev
      simp only [List.mem_append, List.mem_singleton] at hev
      rcases hev with ((((rfl | hev) | rfl) | rfl) | hev) | rfl
      · exact ⟨rfl, rfl⟩
      · exact hprints _ ev hev
      · exact ⟨rfl, rfl⟩
      · exact ⟨rfl, rfl⟩
      · exact printMatches_quiet _ 0 ev hev
      · exact ⟨rfl, rfl⟩
    · intro ev hev
      simp only [List.mem_append, List.mem_singleton] at hev
      rcases hev with ((rfl | hev) | rfl) | rfl
      · exact ⟨rfl, rfl⟩
      · exact hprints _ ev hev
      · exact ⟨rfl, rfl⟩
      · exact ⟨rfl, rfl⟩
  | Exited c => exact absurd rfl (h c)
  | Selecting M =>
    simp only [step] at h ⊢
    split_ifs at h ⊢
    · split at h
      · exact absurd rfl (h 0)
      · rename_i hnone
        simp only [hnone]
        intro ev hev
        simp only [List.mem_singleton] at hev
        subst hev
        exact ⟨rfl, rfl⟩
    · intro ev hev
      simp only [List.mem_singleton] at hev
      subst hev
      exact ⟨rfl, rfl⟩
    · intro ev hev
      simp only [List.mem_singleton] at hev
      subst hev
      exact ⟨rfl, rfl⟩

/-- C8: the loop leaves through `os.Exit` only by a choice that is a digit from
1 to 5 within the matches on display, in one step and over a whole run, and
a step that does not exit neither calls the clipboard writer nor exits; a
blank query, a query without matches, a blank choice, a digit out of range
(`Invalid selection.`) and any other choice (`Invalid input.`) lead back to
`Searching`. -/
theorem loop_exits_only_by_selection (fold : Char → Char → Bool)
    (limits : List Char → Option ErrorCode) (run : List Nat → Bool)
    (entries : List Entry) :
    (∀ (s : State) (line : List Char) (code : Nat), (∀ c, s ≠ .Exited c) →
      (step fold limits run entries s line).1 = .Exited code →
      ∃ M k, s = .Selecting M ∧ 1 ≤ k ∧ k ≤ 5 ∧ k ≤ M.length ∧
        TrimSpace line = [Nat.digitChar k]) ∧
    (∀ (lines : List (List Char)) (code : Nat),
      (searchAndCopy fold limits run entries lines).1 = .Exited code →
      ∃ pre line post M k, lines = pre ++ line :: post ∧
        (searchAndCopy fold limits run entries pre).1 = .Selecting M ∧
        1 ≤ k ∧ k ≤ 5 ∧ k ≤ M.length ∧ TrimSpace line = [Nat.digitChar k]) ∧
    (∀ (s : State) (line : List Char),
      (∀ code, (step fold limits run entries s line).1 ≠ .Exited code) →
      ∀ ev ∈ (step fold limits run entries s line).2, ev.isCopy = false ∧ ev.isExit = false) ∧
    (∀ line : List Char, TrimSpace line = [] →
      step fold limits run entries .Searching line = (.Searching, [.print "Enter search query: "])) ∧
    (∀ line : List Char, TrimSpace line ≠ [] →
      filterEntries fold limits entries (TrimSpace line) = [] →
      step fold limits run entries .Searching line =
        (.Searching,
          [Event.print "Enter search query: "] ++
            (filterEntriesPrints limits (TrimSpace line)).map Event.print ++
            [Event.clearScreen, Event.print "No matches found."])) ∧
    (∀ (M : List Entry) (line : List Char), TrimSpace line = [] →
      step fold limits run entries (.Selecting M) line =
        (.Searching, [.print "\nPerforming a new search..."])) ∧
    (∀ (M : List Entry) (line : List Char) (k : Nat), 1 ≤ k → k ≤ 5 → M.length < k →
      TrimSpace line = [Nat.digitChar k] →
      step fold limits run entries (.Selecting M) line = (.Searching, [.print "Invalid selection."])) ∧
    (∀ (M : List Entry) (line : List Char), TrimSpace line ≠ [] →
      (∀ k, 1 ≤ k → k ≤ 5 → TrimSpace line ≠ [Nat.digitChar k]) →
      step fold limits run entries (.Selecting M) line = (.Searching, [.print "Invalid input."])) := by
  refine ⟨step_exited_only_if fold limits run entries, ?_, step_quiet fold limits run entries, ?_, ?_, ?_, ?_, ?_⟩
  · intro lines code h
    exact runLoop_exited_only_if fold limits run entries lines .Searching code (fun c hc => by cases hc) h
  · intro line h
    simp [step, h]
  · intro line h hnone
    simp [step, h, hnone]
  · intro M line h
    simp [step, h]
  · intro M line k hk1 hk5 hlen hline
    rw [step_selecting_digit fold limits run entries M line k hk1 hk5 hline,
      List.getElem?_eq_none (by omega)]
  · intro M line hne hnd
    have h1 := hnd 1 (by omega) (by omega)
    have h2 := hnd 2 (by omega) (by omega)
    have h3 := hnd 3 (by omega) (by omega)
    have h4 := hnd 4 (by omega) (by omega)
    have h5 := hnd 5 (by omega) (by omega)
    simp only [Nat.digitChar] at h1 h2 h3 h4 h5
    simp at h1 h2 h3 h4 h5
    simp [step, h1, h2, h3, h4, h5, hne]

/-- C9 (amended): when the clipboard writer fails after a valid selection,
the failure is reported and the process exits with code 0 all the same; lines
that follow are not read. -/
theorem step_failed_copy_exits (fold : Char → Char → Bool)
    (limits : List Char → Option ErrorCode) (run : List Nat → Bool)
    (entries M : List Entry) (line : List Char) (k : Nat) (m : Entry)
    (hk1 : 1 ≤ k) (hk5 : k ≤ 5) (hline : TrimSpace line = [Nat.digitChar k])
    (hm : M[k - 1]? = some m) (hfail : copyToClipboard run m.Description = true) :
    step fold limits run entries (.Selecting M) line =
        (.Exited 0,
          [.copyToClipboard m.Description, .print "Error copying to clipboard:", .exit 0]) ∧
      ∀ rest : List (List Char),
        runLoop fold limits run entries (.Selecting M) (line :: rest) =
          (.Exited 0,
            [.copyToClipboard m.Description, .print "Error copying to clipboard:", .exit 0]) := by
  have hstep : step fold limits run entries (.Selecting M) line =
      (.Exited 0,
        [.copyToClipboard m.Description, .print "Error copying to clipboard:", .exit 0]) := by
    rw [step_selecting_digit fold limits run entries M line k hk1 hk5 hline, hm]
    simp [hfail]
  refine ⟨hstep, ?_⟩
  intro rest
  have hrest : ∀ ls : List (List Char),
      runLoop fold limits run entries (.Exited 0) ls = (.Exited 0, []) := by
    intro ls
    induction ls with
    | nil => rfl
    | cons l ls ih => simp [runLoop, step, ih]
  simp [runLoop, hstep, hrest]

theorem step_failed_copy_exits_witness :
    step asciiFold noLimits (fun _ => false) [] (.Selecting [⟨['a'], ['x']⟩]) ['1', '\n'] =
        (.Exited 0, [.copyToClipboard ['x'], .print "Error copying to clipboard:", .exit 0]) ∧
      ∀ rest : List (List Char),
        runLoop asciiFold noLimits (fun _ => false) [] (.Selecting [⟨['a'], ['x']⟩]) (['1', '\n'] :: rest) =
          (.Exited 0, [.copyToClipboard ['x'], .print "Error copying to clipboard:", .exit 0]) :=
  step_failed_copy_exits asciiFold noLimits (fun _ => false) [] [⟨['a'], ['x']⟩] ['1', '\n'] 1 ⟨['a'], ['x']⟩
    (by decide) (by decide) (by decide) (by decide) (by decide)

/-- C9 (counterexample): with a clipboard writer that fails, the choice `1`
among one match ends the process with code 0; the loop is not back in
`Searching`. -/
theorem failed_copy_not_searching :
    (step asciiFold noLimits (fun _ => false) [] (.Selecting [⟨['a'], ['x']⟩]) ['1', '\n']).1 = .Exited 0 ∧
      (step asciiFold noLimits (fun _ => false) [] (.Selecting [⟨['a'], ['x']⟩]) ['1', '\n']).1 ≠
        .Searching := by
  decide

/-- C10: a query whose pattern does not compile gives the empty result without
a failure, and the loop goes on as for a query without matches: it reports
the pattern error and `No matches found.` and is back in `Searching`. -/
theorem filterEntries_invalid_pattern (fold : Char → Char → Bool)
    (limits : List Char → Option ErrorCode) (run : List Nat → Bool)
    (C : List Entry) (q : List Char) (e : ErrorCode)
    (hbad : regexpCompile limits (buildPattern q) = .error e) :
    filterEntries fold limits C q = [] ∧
      ∀ line : List Char, TrimSpace line = q → q ≠ [] →
        step fold limits run C .Searching line =
          (.Searching,
            [.print "Enter search query: ", .print "Error compiling regex:", .clearScreen,
              .print "No matches found."]) := by
  have hnone : filterEntries fold limits C q = [] := by
    simp [filterEntries, hbad]
  refine ⟨hnone, ?_⟩
  intro line hline hq
  simp [step, hline, hq, hnone, filterEntriesPrints, hbad]

theorem filterEntries_invalid_pattern_witness :
    (regexpCompile noLimits (buildPattern ['*']) = .error .ErrMissingRepeatArgument ∧
        regexpCompile noLimits (buildPattern ['(']) = .error .ErrMissingParen) ∧
      (filterEntries asciiFold noLimits [⟨['a', '*', 'b'], ['x']⟩] ['*'] = [] ∧
        ∀ line : List Char, TrimSpace line = ['*'] → ['*'] ≠ [] →
          step asciiFold noLimits (fun _ => true) [⟨['a', '*', 'b'], ['x']⟩] .Searching line =
            (.Searching,
              [.print "Enter search query: ", .print "Error compiling regex:", .clearScreen,
                .print "No matches found."])) :=
  ⟨by decide,
    filterEntries_invalid_pattern asciiFold noLimits (fun _ => true) [⟨['a', '*', 'b'], ['x']⟩] ['*']
      .ErrMissingRepeatArgument (by decide)⟩

/-! ## Theorems: queries without special characters -/

theorem parseLoop_nil (fuel : Nat) (p : Parser) (lr : Bool) :
    parseLoop (fuel + 1) p lr [] = parseEnd p := by
  rw [parseLoop]
  rfl

theorem parseStep_plain (p : Parser) (lr : Bool) (c : Char) (t : List Char)
    (hc : isSpecial c = false) : parseStep p lr c t = .next (p.literal c) false t := by
  unfold parseStep
  split <;> first | rfl | (exfalso; simp [isSpecial] at hc)

theorem strip_quest (t : List Char) :
    (match t with
      | '?' :: rest => rest
      | _ => t) = t ∨ ∃ t1, t = '?' :: t1 := by
  cases t with
  | nil => exact Or.inl rfl
  | cons d t1 =>
    by_cases hd : d = '?'
    · exact Or.inr ⟨t1, by rw [hd]⟩
    · left
      split
      · rename_i heq
        simp only [List.cons.injEq] at heq
        exact absurd heq.1 hd
      · rfl

theorem repeat_of_no_quest (S : List Item) (fc : Bool) (n : Nat) (op : Regexp → Regexp)
    (sub : Regexp) (t : List Char) (h : ∀ t1, t ≠ '?' :: t1) :
    Parser.repeat { stack := .re sub :: S, foldCase := fc, numCap := n } op t false =
      .ok ({ stack := .re (op sub) :: S, foldCase := fc, numCap := n }, t) := by
  rcases strip_quest t with ht | ⟨t1, ht⟩
  · simp only [Parser.repeat, ht]
    rfl
  · exact absurd ht (h t1)

theorem flatMap_no_quest (q : List Char) (hq : ∀ c ∈ q, isSpecial c = false) :
    ∀ t1, (q.flatMap fun c => [c, '.', '*']) ≠ '?' :: t1 := by
  intro t1 h
  cases q with
  | nil => simp at h
  | cons d q =>
    simp only [List.flatMap_cons, List.cons_append, List.cons.injEq] at h
    have hd := hq d (List.mem_cons_self _ _)
    rw [h.1] at hd
    simp [isSpecial] at hd

theorem parseLoop_plain (q : List Char) :
    ∀ (fuel : Nat) (S : List Item) (n : Nat) (lr : Bool), (∀ c ∈ q, isSpecial c = false) →
      3 * q.length < fuel →
      parseLoop fuel { stack := S, foldCase := true, numCap := n } lr
          (q.flatMap fun c => [c, '.', '*']) =
        parseEnd { stack := ((plainItems q).map Item.re).reverse ++ S, foldCase := true,
                   numCap := n } := by
  induction q with
  | nil =>
    intro fuel S n lr _ hf
    obtain ⟨k, rfl⟩ : ∃ k, fuel = k + 1 := ⟨fuel - 1, by omega⟩
    simp [parseLoop_nil, plainItems]
  | cons c q ih =>
    intro fuel S n lr hq hf
    simp only [List.length_cons] at hf
    obtain ⟨k, rfl⟩ : ∃ k, fuel = k + 3 := ⟨fuel - 3, by omega⟩
    have hc : isSpecial c = false := hq c (List.mem_cons_self _ _)
    have hq1 : ∀ d ∈ q, isSpecial d = false := fun d hd => hq d (List.mem_cons_of_mem _ hd)
    simp only [List.flatMap_cons, List.cons_append, List.nil_append]
    rw [parseLoop, parseStep_plain _ _ _ _ hc]
    simp only
    rw [parseLoop]
    simp only [parseStep, Parser.op, Parser.literal]
    rw [parseLoop]
    simp only [parseStep, repeat_of_no_quest _ _ _ _ _ _ (flatMap_no_quest q hq1)]
    rw [ih k _ n true hq1 (by omega)]
    simp [plainItems, List.flatMap_cons]

theorem regexps_map_re (rs : List Regexp) : Item.regexps (rs.map Item.re) = rs := by
  induction rs with
  | nil => rfl
  | cons r rs ih => simp [Item.regexps, ih]

theorem takeWhile_map_re (rs : List Regexp) :
    (rs.map Item.re).takeWhile Item.isRe = rs.map Item.re := by
  induction rs with
  | nil => rfl
  | cons r rs ih => simp [List.takeWhile, Item.isRe, ih]

theorem dropWhile_map_re (rs : List Regexp) : (rs.map Item.re).dropWhile Item.isRe = [] := by
  induction rs with
  | nil => rfl
  | cons r rs ih => simp [List.dropWhile, Item.isRe, ih]

theorem parseEnd_map_re (rs : List Regexp) (fc : Bool) (n : Nat) :
    parseEnd { stack := (rs.map Item.re).reverse, foldCase := fc, numCap := n } =
      .ok (collapseConcat rs) := by
  have hrev : (rs.map Item.re).reverse = rs.reverse.map Item.re := by
    rw [List.map_reverse]
  simp only [parseEnd, Parser.closeGroup, Parser.concat, Parser.swapVerticalBar, Parser.alternate,
    hrev, takeWhile_map_re, dropWhile_map_re, regexps_map_re, List.reverse_reverse]
  simp [List.takeWhile, List.dropWhile, Item.isRe, Item.regexps, collapseAlternate]

theorem syntaxParse_plain (q : List Char) (hq : ∀ c ∈ q, isSpecial c = false) :
    syntaxParse (buildPattern q) = .ok (collapseConcat (plainItems q)) := by
  rw [buildPattern_eq]
  unfold syntaxParse
  have hlen : (q.flatMap fun c => [c, '.', '*']).length = 3 * q.length := by
    induction q with
    | nil => rfl
    | cons c q ih =>
      simp only [List.flatMap_cons, List.length_append, List.length_cons, List.length_nil,
        ih fun d hd => hq d (List.mem_cons_of_mem _ hd)]
      omega
  have h := parseLoop_plain q ((q.flatMap fun c => [c, '.', '*']).length + 4) [] 0 false hq
    (by omega)
  rw [List.append_nil, parseEnd_map_re] at h
  simpa [parseLoop, parseStep, parsePerlFlagsLoop] using h

theorem regexpCompile_plain (limits : List Char → Option ErrorCode) (q : List Char)
    (hq : ∀ c ∈ q, isSpecial c = false) (hlim : limitError limits (buildPattern q) = none) :
    regexpCompile limits (buildPattern q) = .ok (collapseConcat (plainItems q)) := by
  unfold regexpCompile
  rw [hlim]
  exact syntaxParse_plain q hq

theorem regexpCompile_of_limit (limits : List Char → Option ErrorCode) (pattern : List Char)
    (e : ErrorCode) (hlim : limitError limits pattern = some e) :
    regexpCompile limits pattern = .error e := by
  unfold regexpCompile
  rw [hlim]

theorem limitError_short (limits : List Char → Option ErrorCode) (q : List Char)
    (hq : q.length ≤ 32) : limitError limits (buildPattern q) = none := by
  have hlen : (buildPattern q).length = 3 * q.length + 4 := by
    rw [buildPattern_eq]
    induction q with
    | nil => rfl
    | cons c q ih =>
      simp only [List.length_cons] at hq
      have := ih (by omega)
      simp only [List.flatMap_cons, List.length_append, List.length_cons, List.length_nil] at this ⊢
      omega
  unfold limitError
  rw [if_pos (by omega)]

/-- A query whose pattern a resource limit stops gives the empty result, like
any other pattern that does not compile. -/
theorem filterEntries_of_limit (fold : Char → Char → Bool)
    (limits : List Char → Option ErrorCode) (C : List Entry) (q : List Char) (e : ErrorCode)
    (hlim : limitError limits (buildPattern q) = some e) : filterEntries fold limits C q = [] := by
  simp [filterEntries, regexpCompile_of_limit limits _ e hlim]

theorem step_collapseConcat (fold : Char → Char → Bool) (s : List Char) (rs : List Regexp) :
    ∀ ps : List Nat,
      (collapseConcat rs).step fold s ps = rs.foldl (fun acc r => r.step fold s acc) ps := by
  induction rs with
  | nil => intro ps; rfl
  | cons r rs ih =>
    intro ps
    cases rs with
    | nil => rfl
    | cons r2 rs =>
      show (collapseConcat (r2 :: rs)).step fold s (r.step fold s ps) = _
      rw [ih]
      rfl

theorem mem_advance (s : List Char) (ok : Char → Bool) (ps : List Nat) (j : Nat) :
    j ∈ advance s ok ps ↔ ∃ i ∈ ps, ∃ r, s[i]? = some r ∧ ok r = true ∧ j = i + 1 := by
  unfold advance
  rw [List.mem_filterMap]
  constructor
  · rintro ⟨i, hi, h⟩
    cases hr : s[i]? with
    | none => simp [hr] at h
    | some r =>
      rw [hr] at h
      by_cases hok : ok r = true
      · simp only [hok, if_true, Option.some.injEq] at h
        exact ⟨i, hi, r, hr, hok, h.symm⟩
      · simp [hok] at h
  · rintro ⟨i, hi, r, hr, hok, rfl⟩
    exact ⟨i, hi, by simp [hr, hok]⟩

theorem mem_closure_ge (f : List Nat → List Nat)
    (hf : ∀ ps j, j ∈ f ps → ∃ i ∈ ps, i ≤ j) (n : Nat) :
    ∀ (ps : List Nat) (j : Nat), j ∈ closure f n ps → ∃ i ∈ ps, i ≤ j := by
  induction n with
  | zero =>
    intro ps j hj
    exact ⟨j, hj, Nat.le_refl j⟩
  | succ n ih =>
    intro ps j hj
    rw [closure, List.mem_append] at hj
    rcases hj with hj | hj
    · exact ⟨j, hj, Nat.le_refl j⟩
    · obtain ⟨i1, hi1, hle1⟩ := ih (f ps) j hj
      obtain ⟨i, hi, hle⟩ := hf ps i1 hi1
      exact ⟨i, hi, Nat.le_trans hle hle1⟩

theorem foldSubseq_nil (fold : Char → Char → Bool) (name : List Char) :
    foldSubseq fold [] name = true := by
  cases name <;> rfl

theorem foldSubseq_cons (fold : Char → Char → Bool) (q name : List Char) (r : Char)
    (h : foldSubseq fold q name = true) : foldSubseq fold q (r :: name) = true := by
  cases q with
  | nil => exact foldSubseq_nil fold _
  | cons c q => simp [foldSubseq, h]

theorem foldSubseq_append_left (fold : Char → Char → Bool) (q name pre : List Char)
    (h : foldSubseq fold q name = true) : foldSubseq fold q (pre ++ name) = true := by
  induction pre with
  | nil => exact h
  | cons r pre ih => exact foldSubseq_cons fold q _ r ih

theorem foldSubseq_drop (fold : Char → Char → Bool) (q s : List Char) (i k : Nat) (hik : i ≤ k)
    (h : foldSubseq fold q (s.drop k) = true) : foldSubseq fold q (s.drop i) = true := by
  have hd : s.drop i = (s.drop i).take (k - i) ++ s.drop k := by
    have h1 : s.drop k = (s.drop i).drop (k - i) := by
      rw [List.drop_drop]
      congr 1
      omega
    rw [h1, List.take_append_drop]
  rw [hd]
  exact foldSubseq_append_left fold q _ _ h

theorem plain_sound (fold : Char → Char → Bool) (s : List Char) (q : List Char) :
    ∀ (ps : List Nat) (j : Nat),
      j ∈ (plainItems q).foldl (fun acc r => r.step fold s acc) ps →
      ∃ i ∈ ps, foldSubseq fold q (s.drop i) = true := by
  induction q with
  | nil =>
    intro ps j hj
    exact ⟨j, hj, foldSubseq_nil fold _⟩
  | cons c q ih =>
    intro ps j hj
    simp only [plainItems, List.flatMap_cons, List.cons_append, List.nil_append,
      List.foldl_cons] at hj
    obtain ⟨i2, hi2, hsub⟩ := ih _ j hj
    simp only [Regexp.step] at hi2
    obtain ⟨i1, hi1, hle⟩ := mem_closure_ge _
      (fun ps j hj => by
        obtain ⟨i, hi, -, -, -, rfl⟩ := (mem_advance s _ ps j).mp hj
        exact ⟨i, hi, Nat.le_succ i⟩) _ _ i2 hi2
    obtain ⟨i, hi, r, hr, hok, rfl⟩ := (mem_advance s _ ps i1).mp hi1
    refine ⟨i, hi, ?_⟩
    have hlt : i < s.length := by
      by_contra hge
      rw [List.getElem?_eq_none (by omega)] at hr
      cases hr
    have hdrop : s.drop i = r :: s.drop (i + 1) := by
      rw [List.drop_eq_getElem_cons hlt]
      congr 1
      rw [List.getElem?_eq_getElem hlt] at hr
      exact Option.some.inj hr
    rw [hdrop]
    have h2 := foldSubseq_drop fold q s (i + 1) i2 hle hsub
    simp [foldSubseq, hok, h2]

theorem Matches.le {fold : Char → Char → Bool} {s : List Char} {re : Regexp} {i j : Nat}
    (h : Matches fold s re i j) : i ≤ j := by
  induction h with
  | emptyMatch => exact Nat.le_refl _
  | literal => exact Nat.le_succ _
  | charClass => exact Nat.le_succ _
  | anyCharNotNL => exact Nat.le_succ _
  | beginText => exact Nat.le_refl _
  | endText => exact Nat.le_refl _
  | capture _ _ _ _ _ ih => exact ih
  | starNil => exact Nat.le_refl _
  | starCons _ _ _ _ _ _ ih1 ih2 => exact Nat.le_trans ih1 ih2
  | plus _ _ _ _ _ _ ih1 ih2 => exact Nat.le_trans ih1 ih2
  | questNil => exact Nat.le_refl _
  | questOne _ _ _ _ ih => exact ih
  | concat _ _ _ _ _ _ _ ih1 ih2 => exact Nat.le_trans ih1 ih2
  | altLeft _ _ _ _ _ ih => exact ih
  | altRight _ _ _ _ _ ih => exact ih

theorem Matches.le_length {fold : Char → Char → Bool} {s : List Char} {re : Regexp} {i j : Nat}
    (h : Matches fold s re i j) : j = i ∨ j ≤ s.length := by
  have hget : ∀ (i : Nat) (r : Char), s[i]? = some r → i + 1 ≤ s.length := by
    intro i r hr
    by_contra hge
    rw [List.getElem?_eq_none (by omega)] at hr
    cases hr
  induction h with
  | emptyMatch => exact Or.inl rfl
  | literal _ _ i r hr => exact Or.inr (hget i r hr)
  | charClass _ _ _ i r hr => exact Or.inr (hget i r hr)
  | anyCharNotNL i r hr => exact Or.inr (hget i r hr)
  | beginText => exact Or.inl rfl
  | endText => exact Or.inl rfl
  | capture _ _ _ _ _ ih => exact ih
  | starNil => exact Or.inl rfl
  | starCons _ _ _ _ _ _ ih1 ih2 =>
    rcases ih2 with h2 | h2
    · rw [h2]; exact ih1
    · exact Or.inr h2
  | plus _ _ _ _ _ _ ih1 ih2 =>
    rcases ih2 with h2 | h2
    · rw [h2]; exact ih1
    · exact Or.inr h2
  | questNil => exact Or.inl rfl
  | questOne _ _ _ _ ih => exact ih
  | concat _ _ _ _ _ _ _ ih1 ih2 =>
    rcases ih2 with h2 | h2
    · rw [h2]; exact ih1
    · exact Or.inr h2
  | altLeft _ _ _ _ _ ih => exact ih
  | altRight _ _ _ _ _ ih => exact ih

theorem closure_sound (P : Nat → Nat → Prop) (Q : Nat → Nat → Prop) (f : List Nat → List Nat)
    (hf : ∀ ps j, j ∈ f ps → ∃ i ∈ ps, P i j) (hnil : ∀ i, Q i i)
    (hcons : ∀ i j k, P i j → Q j k → Q i k) (n : Nat) :
    ∀ (ps : List Nat) (j : Nat), j ∈ closure f n ps → ∃ i ∈ ps, Q i j := by
  induction n with
  | zero =>
    intro ps j hj
    exact ⟨j, hj, hnil j⟩
  | succ n ih =>
    intro ps j hj
    rw [closure, List.mem_append] at hj
    rcases hj with hj | hj
    · exact ⟨j, hj, hnil j⟩
    · obtain ⟨i1, hi1, hq⟩ := ih (f ps) j hj
      obtain ⟨i, hi, hp⟩ := hf ps i1 hi1
      exact ⟨i, hi, hcons i i1 j hp hq⟩

theorem step_sound (fold : Char → Char → Bool) (s : List Char) (re : Regexp) :
    ∀ (ps : List Nat) (j : Nat), j ∈ re.step fold s ps → ∃ i ∈ ps, Matches fold s re i j := by
  induction re with
  | OpNoMatch => intro ps j hj; simp [Regexp.step] at hj
  | OpEmptyMatch => intro ps j hj; exact ⟨j, hj, .emptyMatch j⟩
  | OpLiteral c fc =>
    intro ps j hj
    obtain ⟨i, hi, r, hr, hok, rfl⟩ := (mem_advance s _ ps j).mp hj
    exact ⟨i, hi, .literal c fc i r hr hok⟩
  | OpCharClass ranges fc neg =>
    intro ps j hj
    obtain ⟨i, hi, r, hr, hok, rfl⟩ := (mem_advance s _ ps j).mp hj
    exact ⟨i, hi, .charClass ranges fc neg i r hr hok⟩
  | OpAnyCharNotNL =>
    intro ps j hj
    obtain ⟨i, hi, r, hr, hok, rfl⟩ := (mem_advance s _ ps j).mp hj
    exact ⟨i, hi, .anyCharNotNL i r hr hok⟩
  | OpBeginText =>
    intro ps j hj
    simp only [Regexp.step, List.mem_filter, beq_iff_eq] at hj
    obtain ⟨hj, rfl⟩ := hj
    exact ⟨0, hj, .beginText⟩
  | OpEndText =>
    intro ps j hj
    simp only [Regexp.step, List.mem_filter, beq_iff_eq] at hj
    obtain ⟨hj, rfl⟩ := hj
    exact ⟨s.length, hj, .endText⟩
  | OpCapture cap sub ih =>
    intro ps j hj
    obtain ⟨i, hi, h⟩ := ih ps j hj
    exact ⟨i, hi, .capture cap sub i j h⟩
  | OpStar sub ih =>
    intro ps j hj
    exact closure_sound (Matches fold s sub) (Matches fold s (.OpStar sub)) _ ih
      (fun i => .starNil sub i) (fun i j k h1 h2 => .starCons sub i j k h1 h2) _ ps j hj
  | OpPlus sub ih =>
    intro ps j hj
    obtain ⟨i1, hi1, h2⟩ := closure_sound (Matches fold s sub) (Matches fold s (.OpStar sub)) _ ih
      (fun i => .starNil sub i) (fun i j k h1 h2 => .starCons sub i j k h1 h2) _ _ j hj
    obtain ⟨i, hi, h1⟩ := ih ps i1 hi1
    exact ⟨i, hi, .plus sub i i1 j h1 h2⟩
  | OpQuest sub ih =>
    intro ps j hj
    simp only [Regexp.step, List.mem_append] at hj
    rcases hj with hj | hj
    · exact ⟨j, hj, .questNil sub j⟩
    · obtain ⟨i, hi, h⟩ := ih ps j hj
      exact ⟨i, hi, .questOne sub i j h⟩
  | OpConcat a b iha ihb =>
    intro ps j hj
    obtain ⟨i1, hi1, h2⟩ := ihb _ j hj
    obtain ⟨i, hi, h1⟩ := iha ps i1 hi1
    exact ⟨i, hi, .concat a b i i1 j h1 h2⟩
  | OpAlternate a b iha ihb =>
    intro ps j hj
    simp only [Regexp.step, List.mem_append] at hj
    rcases hj with hj | hj
    · obtain ⟨i, hi, h⟩ := iha ps j hj
      exact ⟨i, hi, .altLeft a b i j h⟩
    · obtain ⟨i, hi, h⟩ := ihb ps j hj
      exact ⟨i, hi, .altRight a b i j h⟩

theorem mem_closure_self (f : List Nat → List Nat) (n : Nat) (ps : List Nat) (i : Nat)
    (hi : i ∈ ps) : i ∈ closure f n ps := by
  cases n with
  | zero => exact hi
  | succ n =>
    rw [closure, List.mem_append]
    exact Or.inl hi

theorem star_complete (fold : Char → Char → Bool) (s : List Char) (sub : Regexp)
    (f : List Nat → List Nat)
    (hsub : ∀ ps i j, i ∈ ps → Matches fold s sub i j → j ∈ f ps)
    (re : Regexp) (i k : Nat) (h : Matches fold s re i k) :
    re = .OpStar sub → ∀ (ps : List Nat) (n : Nat), i ∈ ps → k - i ≤ n → k ∈ closure f n ps := by
  induction h with
  | emptyMatch => intro hre; cases hre
  | literal => intro hre; cases hre
  | charClass => intro hre; cases hre
  | anyCharNotNL => intro hre; cases hre
  | beginText => intro hre; cases hre
  | endText => intro hre; cases hre
  | capture => intro hre; cases hre
  | plus => intro hre; cases hre
  | questNil => intro hre; cases hre
  | questOne => intro hre; cases hre
  | concat => intro hre; cases hre
  | altLeft => intro hre; cases hre
  | altRight => intro hre; cases hre
  | starNil sub1 i =>
    intro _ ps n hi _
    exact mem_closure_self f n ps i hi
  | starCons sub1 i j k h1 h2 _ ih2 =>
    intro hre ps n hi hn
    have hsub1 : sub1 = sub := by
      cases hre
      rfl
    subst hsub1
    have hij := h1.le
    have hjk := h2.le
    by_cases hji : j = i
    · subst hji
      exact ih2 rfl ps n hi hn
    · obtain ⟨m, rfl⟩ : ∃ m, n = m + 1 := ⟨n - 1, by omega⟩
      rw [closure, List.mem_append]
      exact Or.inr (ih2 rfl (f ps) m (hsub ps i j hi h1) (by omega))

theorem step_complete (fold : Char → Char → Bool) (s : List Char) (re : Regexp) :
    ∀ (ps : List Nat) (i j : Nat), i ∈ ps → Matches fold s re i j → j ∈ re.step fold s ps := by
  induction re with
  | OpNoMatch => intro ps i j _ h; cases h
  | OpEmptyMatch => intro ps i j hi h; cases h; exact hi
  | OpLiteral c fc =>
    intro ps i j hi h
    cases h with
    | literal _ _ _ r hr hok => exact (mem_advance s _ ps _).mpr ⟨i, hi, r, hr, hok, rfl⟩
  | OpCharClass ranges fc neg =>
    intro ps i j hi h
    cases h with
    | charClass _ _ _ _ r hr hok => exact (mem_advance s _ ps _).mpr ⟨i, hi, r, hr, hok, rfl⟩
  | OpAnyCharNotNL =>
    intro ps i j hi h
    cases h with
    | anyCharNotNL _ r hr hok => exact (mem_advance s _ ps _).mpr ⟨i, hi, r, hr, hok, rfl⟩
  | OpBeginText =>
    intro ps i j hi h
    cases h
    simpa [Regexp.step] using hi
  | OpEndText =>
    intro ps i j hi h
    cases h
    simpa [Regexp.step] using hi
  | OpCapture cap sub ih =>
    intro ps i j hi h
    cases h with
    | capture _ _ _ _ h1 => exact ih ps i j hi h1
  | OpStar sub ih =>
    intro ps i j hi h
    have hbound : j - i ≤ s.length + 1 := by
      rcases h.le_length with h1 | h1 <;> omega
    exact star_complete fold s sub _ ih _ i j h rfl ps _ hi hbound
  | OpPlus sub ih =>
    intro ps i j hi h
    cases h with
    | plus _ _ m _ h1 h2 =>
      have hbound : j - m ≤ s.length + 1 := by
        rcases h2.le_length with h3 | h3 <;> omega
      exact star_complete fold s sub _ ih _ m j h2 rfl _ _ (ih ps i m hi h1) hbound
  | OpQuest sub ih =>
    intro ps i j hi h
    simp only [Regexp.step, List.mem_append]
    cases h with
    | questNil => exact Or.inl hi
    | questOne _ _ _ h1 => exact Or.inr (ih ps i j hi h1)
  | OpConcat a b iha ihb =>
    intro ps i j hi h
    cases h with
    | concat _ _ _ m _ h1 h2 => exact ihb _ m j (iha ps i m hi h1) h2
  | OpAlternate a b iha ihb =>
    intro ps i j hi h
    simp only [Regexp.step, List.mem_append]
    cases h with
    | altLeft _ _ _ _ h1 => exact Or.inl (iha ps i j hi h1)
    | altRight _ _ _ _ h1 => exact Or.inr (ihb ps i j hi h1)

/-- The matcher computes the relation: the positions `Regexp.step` returns are
the ends of the matches that start at one of the given positions. -/
theorem mem_step_iff (fold : Char → Char → Bool) (s : List Char) (re : Regexp) (ps : List Nat)
    (j : Nat) : j ∈ re.step fold s ps ↔ ∃ i ∈ ps, Matches fold s re i j :=
  ⟨step_sound fold s re ps j, fun ⟨i, hi, h⟩ => step_complete fold s re ps i j hi h⟩

/-- `MatchString` holds exactly when the expression matches between two
positions of the text. -/
theorem matchString_iff (fold : Char → Char → Bool) (re : Regexp) (s : List Char) :
    re.MatchString fold s = true ↔ ∃ i j, i ≤ s.length ∧ Matches fold s re i j := by
  unfold Regexp.MatchString
  constructor
  · intro h
    cases hl : re.step fold s (List.range (s.length + 1)) with
    | nil => simp [hl] at h
    | cons j l =>
      have hj : j ∈ re.step fold s (List.range (s.length + 1)) := by
        rw [hl]
        exact List.mem_cons_self _ _
      obtain ⟨i, hi, hm⟩ := (mem_step_iff fold s re _ j).mp hj
      exact ⟨i, j, by rw [List.mem_range] at hi; omega, hm⟩
  · rintro ⟨i, j, hi, hm⟩
    have hj : j ∈ re.step fold s (List.range (s.length + 1)) :=
      (mem_step_iff fold s re _ j).mpr ⟨i, by rw [List.mem_range]; omega, hm⟩
    cases hl : re.step fold s (List.range (s.length + 1)) with
    | nil => rw [hl] at hj; cases hj
    | cons a l => rfl

theorem matchString_plain_iff (fold : Char → Char → Bool) (q s : List Char) :
    Regexp.MatchString fold (collapseConcat (plainItems q)) s = true ↔
      ∃ j, j ∈ (plainItems q).foldl (fun acc r => r.step fold s acc)
        (List.range (s.length + 1)) := by
  unfold Regexp.MatchString
  rw [step_collapseConcat]
  generalize (plainItems q).foldl (fun acc r => r.step fold s acc) (List.range (s.length + 1)) = l
  cases l with
  | nil => simp
  | cons a l => simp

/-- C1 (amended): for a query without characters that are special in the
pattern syntax, every entry `filterEntries` returns has a name that contains
the characters of the query in order, compared up to case folding, as a
subsequence. -/
theorem filterEntries_plain_sound (fold : Char → Char → Bool)
    (limits : List Char → Option ErrorCode) (C : List Entry) (q : List Char)
    (e : Entry) (hq : ∀ c ∈ q, isSpecial c = false) (he : e ∈ filterEntries fold limits C q) :
    foldSubseq fold q e.Name = true := by
  cases hlim : limitError limits (buildPattern q) with
  | some err =>
    simp [filterEntries, regexpCompile_of_limit limits _ err hlim] at he
  | none =>
  rw [filterEntries_of_ok fold limits C q _ (regexpCompile_plain limits q hq hlim)] at he
  have hm := (List.mem_filter.mp (List.mem_of_mem_take he)).2
  obtain ⟨j, hj⟩ := (matchString_plain_iff fold q e.Name).mp hm
  obtain ⟨i, -, hi⟩ := plain_sound fold e.Name q _ j hj
  have := foldSubseq_drop fold q e.Name 0 i (Nat.zero_le i) hi
  simpa using this

theorem filterEntries_plain_sound_witness :
    (∀ c ∈ ['a'], isSpecial c = false) ∧
      (⟨['b', 'A'], ['2']⟩ : Entry) ∈ filterEntries asciiFold noLimits sixEntries ['a'] ∧
      foldSubseq asciiFold ['a'] (⟨['b', 'A'], ['2']⟩ : Entry).Name = true :=
  ⟨by decide, by decide,
    filterEntries_plain_sound asciiFold noLimits sixEntries ['a'] ⟨['b', 'A'], ['2']⟩ (by decide)
      (by decide)⟩

/-- C1 (counterexample): the query `.` returns an entry whose name `b` does
not contain the character `.`. -/
theorem filterEntries_dot_unsound :
    filterEntries asciiFold noLimits [⟨['b'], ['x']⟩] ['.'] = [⟨['b'], ['x']⟩] ∧
      foldSubseq asciiFold ['.'] ['b'] = false := by
  decide

end SimplePaster
